import Mathlib

/-!
Verification development for the `rpath_common.xmllib.api1` XML data binder.

The source (`src/rpath_common/xmllib/api1.py`) is a bidirectional XML/object
binding layer: a SAX-driven parse direction (`BindingHandler`, the `*Node`
classes, `DataBinder.parseString`) and a reflective serialize direction
(`DataBinder._to_etree_r`, `toXml`, `_toXml`, `_getChildOrder`).

Modelling conventions:
* Python byte strings are modelled as `List Char` (`Str`).  Python string
  operations (`strip`, `upper`, `int(...)` coercion) are re-defined here on
  that representation, mirroring Python 2 semantics for the ASCII fragment
  the binder manipulates.
* The XML tokenizer is the external `xml.sax`/expat library, not repository
  code; it is modelled from the spec's event-stream contract (spec section 4.2
  and 4.3): a document is its stream of start/characters/end events, the
  tokenizer validates well-formedness while streaming events to the handler,
  and an ill-formed document raises the error the spec names
  `MalformedDocumentError`.  Likewise `lxml.etree` serialization is modelled
  by an explicit element-tree type and a renderer.
* A node's instance `__dict__` holds `_text` (and, from the first
  `_addChild` on, the copy-on-write `_childOrder`) next to the child fields,
  and attribute lookup falls through to the class namespace (`_finalize`,
  `_addChild`, `_characters`, `_singleChildren`); the model keeps the
  underscore-internal slots as separate record components and the child
  fields as an association list.  This is faithful for every tag name that
  does not begin with an underscore.  A tag that does begin with one
  addresses the node object's internal namespace and the source misbehaves:
  `_addChild('_text', c)` finds the accumulated-text string in `__dict__`,
  creates no list, and `''.append` raises `AttributeError`; a `_childOrder`
  child is appended onto the internal order list itself (silently corrupting
  it); a `_finalize`/`_addChild`/`_characters` child shadows the node's
  method and a later call raises `TypeError`.  The association-list field
  map cannot express these collisions, so underscore-initial tags are a
  declared model boundary: they are outside every claim's quantifier — the
  tag-level claims (C2, C4, C9) are read over non-internal tag names per the
  spec's underscore convention, and the round-trip scope (`goodVal` below)
  excludes underscore-initial mapping keys explicitly.
-/

/-- Python byte strings, modelled as lists of characters. -/
abbrev Str := List Char

/-- The whitespace set of Python 2 `str.strip()` / `int()` coercion. -/
def pySpace (c : Char) : Bool :=
  c = ' ' || c = '\t' || c = '\n' || c = '\r' || c = '\x0b' || c = '\x0c'

/-- Python `s.strip()`. -/
def pyStrip (s : Str) : Str :=
  ((s.dropWhile pySpace).reverse.dropWhile pySpace).reverse

/-- Python `s.upper()` (ASCII, which is all the binder compares). -/
def pyUpper (s : Str) : Str := s.map Char.toUpper

/-- Whether a string is entirely whitespace (so `strip` empties it). -/
def allSpace (s : Str) : Bool := s.all pySpace

/-- Numeric value of a nonempty digit string. -/
def digitsToNat (l : Str) : Nat := l.foldl (fun acc c => 10 * acc + (c.toNat - 48)) 0

/-- Sign and digit scan of stripped text. -/
def pyIntAux : Str → Option Int
  | [] => none
  | c :: rest =>
      if c = '+' then
        if rest ≠ [] ∧ rest.all Char.isDigit then some (digitsToNat rest) else none
      else if c = '-' then
        if rest ≠ [] ∧ rest.all Char.isDigit then some (-(digitsToNat rest : Int)) else none
      else if (c :: rest).all Char.isDigit then some (digitsToNat (c :: rest)) else none

/-- Python 2 `int(text)`: strip whitespace, optional sign, base-10 digits;
`none` models the `ValueError` raised on anything else. -/
def pyIntParse (s : Str) : Option Int :=
  pyIntAux (pyStrip s)

/-! ### The node classes (api1.py lines 37-130) -/

/-- The finalization strategy of a node class: `BaseNode`, `IntegerNode`,
`StringNode`, `BooleanNode`, `NullNode` or `DictNode`. -/
inductive NodeKind where
  | base | integer | string | boolean | null | dict
  deriving DecidableEq

/-- A registrable node class: its finalization kind together with its
`_singleChildren` declaration. -/
structure NodeType where
  kind : NodeKind
  singleChildren : List Str
  deriving DecidableEq

/-- `BaseNode`, the default node type used for unregistered tags. -/
def baseType : NodeType := ⟨.base, []⟩

/-- `IntegerNode` (no `_singleChildren` of its own). -/
def integerType : NodeType := ⟨.integer, []⟩

/-- `DictNode`. -/
def dictType : NodeType := ⟨.dict, []⟩

/-- `StringNode`. -/
def stringType : NodeType := ⟨.string, []⟩

/-- `BooleanNode`. -/
def booleanType : NodeType := ⟨.boolean, []⟩

/-- `NullNode`. -/
def nullType : NodeType := ⟨.null, []⟩

mutual
/-- A finalized parse value: what `_finalize` returns for each node class.
`vNode` is a finalized `BaseNode`-style object, carrying the open-tag
attributes (stored as class attributes in the source), the child arrival
order, the child fields and the accumulated text. -/
inductive PVal where
  | vInt (n : Int)
  | vStr (s : Str)
  | vBool (b : Bool)
  | vNone
  | vDict (fields : List (Str × PField))
  | vNode (attrs : List (Str × Str)) (childOrder : List Str)
          (fields : List (Str × PField)) (text : Str)

/-- A child field of a node: either a directly stored value (the tag is in
`_singleChildren`) or the ordered list of values (the default). -/
inductive PField where
  | one (v : PVal)
  | many (vs : List PVal)
end

/-- An in-progress node on the handler's stack: one XML element being built. -/
structure LiveNode where
  ty : NodeType
  attrs : List (Str × Str)
  childOrder : List Str
  fields : List (Str × PField)
  text : Str

/-- The Python exceptions the modelled fragment can raise.  The spec's
`MalformedDocumentError` is the well-formedness failure surfaced by the
underlying XML parser; the spec's `FormatError` is the `ValueError` raised by
`IntegerNode._finalize`. -/
inductive PErr where
  | malformedDocument
  | valueError
  | indexError
  | attributeError
  deriving DecidableEq

/-- `_finalize` of each node class (api1.py lines 68-130):
base returns the node itself; integer is `self._text and int(self._text) or 0`;
string returns the text; boolean tests `text.upper().strip() in ('TRUE','1')`;
null returns `None`; dict returns the non-underscore part of `__dict__`,
i.e. exactly the child fields (attributes live on the synthesized class, and
`_text`/`_childOrder` are underscore-internal). -/
def finalize (n : LiveNode) : Except PErr PVal :=
  match n.ty.kind with
  | .base => .ok (.vNode n.attrs n.childOrder n.fields n.text)
  | .integer =>
      if n.text.isEmpty then .ok (.vInt 0)
      else
        match pyIntParse n.text with
        | some i => .ok (.vInt i)
        | none => .error .valueError
  | .string => .ok (.vStr n.text)
  | .boolean =>
      let t := pyStrip (pyUpper n.text)
      .ok (.vBool (t == "TRUE".data || t == "1".data))
  | .null => .ok .vNone
  | .dict => .ok (.vDict n.fields)

/-- Association-list lookup with string keys (the model of Python dict
indexing). -/
def alookup {α : Type} (fs : List (Str × α)) (k : Str) : Option α :=
  match fs with
  | [] => none
  | p :: r => if p.1 = k then some p.2 else alookup r k

/-- Whether the field association list has an entry for `k`
(`name in self.__dict__`). -/
def hasField (fs : List (Str × PField)) (k : Str) : Bool :=
  (alookup fs k).isSome

/-- Assoc-list lookup of a field. -/
def lookupF (fs : List (Str × PField)) (k : Str) : Option PField :=
  alookup fs k

/-- Dict assignment `self.__dict__[name] = f`: replace in place, or append a
new entry.  (Storage position of keys is a model convention; a Python 2 dict
has no observable order.) -/
def setField (fs : List (Str × PField)) (k : Str) (f : PField) : List (Str × PField) :=
  match fs with
  | [] => [(k, f)]
  | p :: r => if p.1 = k then (k, f) :: r else p :: setField r k f

/-- `BaseNode._addChild` (api1.py lines 56-66).  Appends `name` to
`_childOrder`, then either stores `childNode._finalize()` directly (`name` in
`_singleChildren`) or appends it to the list field, creating the empty list
first.  A failing `_finalize` propagates, leaving the parent in its partially
mutated state (order appended, empty list possibly created); `.append` on a
non-list stored value is Python's `AttributeError` (unreachable for
type-consistent use of non-internal tags).  Declared boundary (see the file
header): `name` is assumed not to begin with an underscore — in the source a
`_text` child finds the internal string slot (`''.append` raises
`AttributeError`), a `_childOrder` child is appended onto the internal order
list, and method-named children shadow the node's methods; this model's
separate field map would instead treat them as ordinary fields, so every
claim keeps such tags out of scope. -/
def addChild (p : LiveNode) (name : Str) (child : LiveNode) :
    Except (LiveNode × PErr) LiveNode :=
  let p1 := { p with childOrder := p.childOrder ++ [name] }
  if name ∈ p.ty.singleChildren then
    match finalize child with
    | .error e => .error (p1, e)
    | .ok v => .ok { p1 with fields := setField p1.fields name (.one v) }
  else
    let p2 := if hasField p1.fields name then p1
              else { p1 with fields := p1.fields ++ [(name, .many [])] }
    match lookupF p2.fields name with
    | some (.many vs) =>
        match finalize child with
        | .error e => .error (p2, e)
        | .ok v => .ok { p2 with fields := setField p2.fields name (.many (vs ++ [v])) }
    | _ => .error (p2, .attributeError)

/-! ### The SAX event machine (api1.py lines 132-168 and 219-226)

`BindingHandler` receives `startElement` / `characters` / `endElement`
callbacks from a fresh `xml.sax` parser created by each `parseString` call.
The external parser is modelled from the spec's event-stream contract: it
keeps its own stack of open element names, checks tag matching, single
rootedness and nonemptiness while streaming events to the handler, and raises
the spec's `MalformedDocumentError` at the first violation.  Whitespace
character data outside the root element is legal XML and is not reported to
the handler; any exception (from tokenizer or handler) aborts the feed. -/

/-- One SAX event of a document. -/
inductive XEvent where
  | start (name : Str) (attrs : List (Str × Str))
  | chars (s : Str)
  | stop (name : Str)
  deriving DecidableEq

/-- `BindingHandler.startElement`: build a fresh node whose class is the
registered type for the tag (default `BaseNode`), seeded with the attributes. -/
def newLive (reg : List (Str × NodeType)) (name : Str) (attrs : List (Str × Str)) :
    LiveNode :=
  { ty := (alookup reg name).getD baseType
    attrs := attrs, childOrder := [], fields := [], text := [] }

/-- Combined state of one in-flight `parseString` call: the external parser's
element-name stack and root-completion flag (fresh per call), and the shared
handler's node stack and `rootNode` slot (persistent on the binder). -/
structure MState where
  tstack : List Str
  rootClosed : Bool
  hstack : List LiveNode
  root : Option LiveNode

/-- One event step of the tokenizer/handler pair.  `.inl` is the next state,
`.inr` a raised exception with the state at the moment of the raise. -/
def saxStep (reg : List (Str × NodeType)) (st : MState) (e : XEvent) :
    MState ⊕ (MState × PErr) :=
  match e with
  | .start n attrs =>
      if st.tstack.isEmpty && st.rootClosed then
        .inr (st, .malformedDocument)       -- junk after the document element
      else
        .inl { st with tstack := n :: st.tstack
                       hstack := newLive reg n attrs :: st.hstack }
  | .chars s =>
      match st.tstack with
      | [] =>
          if allSpace s then .inl st        -- ignorable whitespace outside the root
          else .inr (st, .malformedDocument)
      | _ :: _ =>
          match st.hstack with
          | [] => .inr (st, .indexError)    -- self.stack[-1] on an empty stack
          | top :: hs =>
              .inl { st with hstack := { top with text := top.text ++ s } :: hs }
  | .stop n =>
      match st.tstack with
      | [] => .inr (st, .malformedDocument) -- close without a matching open
      | m :: ts =>
          if m ≠ n then .inr (st, .malformedDocument)  -- mismatched tag
          else
            match st.hstack with
            | [] => .inr (st, .indexError)  -- self.stack.pop() on an empty stack
            | elemN :: hs =>
                match hs with
                | [] =>
                    -- handler stack emptied: the raw, unfinalized node becomes rootNode
                    .inl { tstack := ts, rootClosed := st.rootClosed || ts.isEmpty
                           hstack := [], root := some elemN }
                | parent :: hs2 =>
                    match addChild parent n elemN with
                    | .ok parent2 =>
                        .inl { tstack := ts, rootClosed := st.rootClosed || ts.isEmpty
                               hstack := parent2 :: hs2, root := st.root }
                    | .error (parent2, err) =>
                        .inr ({ tstack := ts, rootClosed := st.rootClosed || ts.isEmpty
                                hstack := parent2 :: hs2, root := st.root }, err)

/-- Feed a list of events, stopping at the first exception. -/
def saxRunM (reg : List (Str × NodeType)) (st : MState) :
    List XEvent → MState × Option PErr
  | [] => (st, none)
  | e :: rest =>
      match saxStep reg st e with
      | .inl st2 => saxRunM reg st2 rest
      | .inr (st2, err) => (st2, some err)

/-- The persistent handler state carried by one `DataBinder` between
`parseString` calls. -/
structure HState where
  stack : List LiveNode
  root : Option LiveNode

/-- `DataBinder.parseString` (api1.py lines 219-226): reset `rootNode` to
`None`, make a fresh parser, feed the document, then read out and clear
`rootNode`.  Only `rootNode` is reset up front — the handler's node stack is
whatever the previous call left behind.  A document that ends with unclosed
elements, or contains no element at all, is rejected by the external parser
(`MalformedDocumentError`); in that case the reset-and-return tail is never
reached. -/
def parseString (reg : List (Str × NodeType)) (h : HState) (doc : List XEvent) :
    HState × Except PErr (Option LiveNode) :=
  let r := saxRunM reg ⟨[], false, h.stack, none⟩ doc
  match r.2 with
  | some e => (⟨r.1.hstack, r.1.root⟩, .error e)
  | none =>
      if r.1.tstack.isEmpty && r.1.rootClosed then
        (⟨r.1.hstack, none⟩, .ok r.1.root)
      else
        (⟨r.1.hstack, r.1.root⟩, .error .malformedDocument)

/-- The event-stream well-formedness contract (spec section 4.2/7): events
nest properly, tags match, there is exactly one root element, and character
data outside the root is whitespace.  `wfAux stack closed evs` checks `evs`
starting with open elements `stack`. -/
def wfAux : List Str → Bool → List XEvent → Bool
  | stack, closed, [] => stack.isEmpty && closed
  | stack, closed, .start n _ :: r =>
      if stack.isEmpty && closed then false
      else wfAux (n :: stack) closed r
  | stack, closed, .chars s :: r =>
      match stack with
      | [] => allSpace s && wfAux [] closed r
      | _ :: _ => wfAux stack closed r
  | stack, closed, .stop n :: r =>
      match stack with
      | [] => false
      | m :: ts => m == n && wfAux ts (closed || ts.isEmpty) r

/-- A document's event stream is well-formed. -/
def wfEvents (doc : List XEvent) : Bool := wfAux [] false doc

/-! ### Child ordering: `DataBinder._getChildOrder` (api1.py lines 228-235) -/

/-- The three-part Python sort key
`(x not in order, x in order and order.index(x), x)`.  `order.index` is the
first occurrence; for an absent tag the middle component is Python's `False`,
which compares as `0`. -/
def childKey (order : List Str) (x : Str) : Bool × Nat × Str :=
  (decide (x ∉ order), if x ∈ order then order.indexOf x else 0, x)

/-- Lexicographic comparison of the three-part keys (Python tuple order,
with `False < True` and byte-wise string comparison). -/
def tripLe (p q : Bool × Nat × Str) : Prop :=
  p.1 < q.1 ∨ (p.1 = q.1 ∧ (p.2.1 < q.2.1 ∨ (p.2.1 = q.2.1 ∧ p.2.2 ≤ q.2.2)))

instance : DecidableRel tripLe := fun p q => by unfold tripLe; infer_instance

/-- The sort relation of `_getChildOrder`. -/
def keyLe (order : List Str) (a b : Str) : Prop :=
  tripLe (childKey order a) (childKey order b)

instance (order : List Str) : DecidableRel (keyLe order) :=
  fun a b => by unfold keyLe; infer_instance

/-- `DataBinder._getChildOrder`: `sorted(items, key = ...)`.  The third key
component is the item itself, so the key is injective and the sorted result
is the unique `keyLe`-sorted permutation; hence any correct sort models
Python's stable sort exactly. -/
def getChildOrder (items : List Str) (order : List Str) : List Str :=
  List.insertionSort (keyLe order) items

/-- Sorting `(key, value)` pairs by key.  The source sorts the pair tuples
themselves (`sorted(obj.iteritems())`); on the duplicate-free keys of a
Python dict that is sorting by key. -/
def pairLe {α : Type} (p q : Str × α) : Prop := p.1 ≤ q.1

instance {α : Type} : DecidableRel (pairLe (α := α)) :=
  fun p q => by unfold pairLe; infer_instance

def sortByFst {α : Type} (l : List (Str × α)) : List (Str × α) :=
  List.insertionSort pairLe l

/-! ### Element trees (the `lxml.etree` intermediate form) -/

/-- An lxml element: tag, attributes, text (`none` models lxml's `None`,
distinct from the empty string) and child elements. -/
inductive XTree where
  | mk (tag : Str) (attrs : List (Str × Str)) (text : Option Str) (children : List XTree)

def XTree.tag : XTree → Str
  | .mk t _ _ _ => t

def XTree.attrs : XTree → List (Str × Str)
  | .mk _ a _ _ => a

def XTree.text : XTree → Option Str
  | .mk _ _ s _ => s

def XTree.children : XTree → List XTree
  | .mk _ _ _ c => c

/-- The result of `_to_etree_r`: a single element, or (for a sequence) the
plain Python list of its members' results — which may be nested for
sequences of sequences. -/
inductive ETRes where
  | single (t : XTree)
  | frags (rs : List ETRes)

/-- Extract elements from a fragment list; `none` when an item is itself a
list (nested sequence), which lxml's `extend`/`tostring` reject. -/
def allSingles : List ETRes → Option (List XTree)
  | [] => some []
  | .single t :: r => (allSingles r).map (t :: ·)
  | .frags _ :: _ => none

/-- `DataBinder._etree_add` (api1.py lines 237-242): `append` an element or
`extend` with a fragment list; `extend` raises `TypeError` on a non-element
item, modelled as `none`. -/
def etreeAdd (cs : List XTree) (r : ETRes) : Option (List XTree) :=
  match r with
  | .single t => some (cs ++ [t])
  | .frags rs => (allSingles rs).map (cs ++ ·)

/-! ### Serializable Python values -/

/-- A Python value handed to the serializer.  `sBool` is matched before
`sInt`, mirroring the `isinstance` order in `_to_etree_r` (Python's `bool`
is a subclass of `int`); floats share the numeric text path and sets/tuples
share the list path, so they are not modelled separately.  For `sObj`:
`attrs` are the non-underscore class attributes (already rendered to strings
by `_toString`), `fields` the non-underscore instance `__dict__` (a Python
dict, so its keys are duplicate-free by construction), `childOrder` the
`_childOrder` declaration and `text` the `_text` slot (empty when absent). -/
inductive SVal where
  | sBool (b : Bool)
  | sInt (n : Int)
  | sStr (s : Str)
  | sList (xs : List SVal)
  | sDict (entries : List (Str × SVal))
  | sObj (className : Str) (attrs : List (Str × Str)) (fields : List (Str × SVal))
         (childOrder : List Str) (text : Str)

/-- `obj.__class__.__name__`, the tag fallback when no name is suggested. -/
def pyClassName : SVal → Str
  | .sBool _ => "bool".data
  | .sInt _ => "int".data
  | .sStr _ => "str".data
  | .sList _ => "list".data
  | .sDict _ => "dict".data
  | .sObj c _ _ _ _ => c

/-- Python `str(n)` for an integer. -/
def intToStr (n : Int) : Str :=
  if n < 0 then '-' :: Nat.toDigits 10 n.natAbs else Nat.toDigits 10 n.natAbs

/-- Fold of `_etree_add` over serialized dict entries (the sorted iteration
of the dict branch of `_to_etree_r`). -/
def addAll (cs : List XTree) : List (Str × ETRes) → Option (List XTree)
  | [] => some cs
  | (_, r) :: rest =>
      match etreeAdd cs r with
      | some cs2 => addAll cs2 rest
      | none => none

/-- Fold of `_etree_add` over the computed child order of the generic-object
branch: `children[key]` is assoc lookup among the serialized fields (the
`none` on a missing key models the impossible `KeyError`). -/
def addAllKeys (rs : List (Str × ETRes)) : List Str → List XTree → Option (List XTree)
  | [], cs => some cs
  | k :: ks, cs =>
      match alookup rs k with
      | some r =>
          match etreeAdd cs r with
          | some cs2 => addAllKeys rs ks cs2
          | none => none
      | none => none

mutual
/-- `DataBinder._to_etree_r` (api1.py lines 244-274).  Faithfulness notes:
the list branch hands the *original* `suggestedName` (possibly `None`) to
each member; the dict branch iterates entries in sorted order — here each
entry is serialized first and the `(key, fragment)` pairs are then sorted by
key, which is the same function of the input because serialization of an
entry is pure and a dict's keys are duplicate-free; the object branch posts
the attributes, emits children in `_getChildOrder` order, and sets the text
only when it has non-whitespace content. -/
def toEtreeR (v : SVal) (suggestedName : Option Str) : Option ETRes :=
  let name := suggestedName.getD (pyClassName v)
  match v with
  | .sBool b => some (.single (.mk name [] (some (if b then "true".data else "false".data)) []))
  | .sInt n => some (.single (.mk name [] (some (intToStr n)) []))
  | .sStr s => some (.single (.mk name [] (some s) []))
  | .sList xs =>
      match toEtreeList xs suggestedName with
      | some rs => some (.frags rs)
      | none => none
  | .sDict entries =>
      match serFields entries with
      | some rs =>
          match addAll [] (sortByFst rs) with
          | some cs => some (.single (.mk name [] none cs))
          | none => none
      | none => none
  | .sObj _ attrs fields corder text =>
      match serFields fields with
      | some rs =>
          match addAllKeys rs (getChildOrder (fields.map (·.1)) corder) [] with
          | some cs =>
              some (.single (.mk name attrs
                (if (pyStrip text).isEmpty then none else some text) cs))
          | none => none
      | none => none

/-- The list comprehension `[ self._to_etree_r(child, suggestedName) for child in obj ]`. -/
def toEtreeList : List SVal → Option Str → Option (List ETRes)
  | [], _ => some []
  | x :: xs, n =>
      match toEtreeR x n with
      | some r =>
          match toEtreeList xs n with
          | some rs => some (r :: rs)
          | none => none
      | none => none

/-- Serialize each field value under its key (pure, order-preserving). -/
def serFields : List (Str × SVal) → Option (List (Str × ETRes))
  | [] => some []
  | (k, v) :: rest =>
      match toEtreeR v (some k) with
      | some r =>
          match serFields rest with
          | some rs => some ((k, r) :: rs)
          | none => none
      | none => none
end

/-- `DataBinder.toXml` (api1.py lines 282-286): build the tree and render it
as a single pretty-printed document with an XML declaration.  The value is
the document tree handed to `etree.tostring`; `none` models the exception
raised either inside `_to_etree_r` or by `tostring` when the "tree" is a
plain list of fragments (a top-level sequence), which cannot be serialized
as one document. -/
def toXml (v : SVal) (suggestedName : Option Str) : Option XTree :=
  match toEtreeR v suggestedName with
  | some (.single t) => some t
  | _ => none

/-- Escape character data for rendering (lxml escapes `&`, `<`, `>` in text). -/
def escText (s : Str) : Str :=
  (s.map fun c =>
    if c = '&' then "&amp;".data
    else if c = '<' then "&lt;".data
    else if c = '>' then "&gt;".data
    else [c]).flatten

/-- Escape an attribute value (lxml escapes `&`, `<` and the quote). -/
def escAttr (s : Str) : Str :=
  (s.map fun c =>
    if c = '&' then "&amp;".data
    else if c = '<' then "&lt;".data
    else if c = '"' then "&quot;".data
    else [c]).flatten

mutual
/-- Compact rendering of one element (`etree.tostring` with
`pretty_print=False`, no declaration): lxml self-closes an element whose
text is `None` and which has no children. -/
def render1 : XTree → Str
  | .mk tag attrs text children =>
      let a := (attrs.map fun p => ' ' :: (p.1 ++ ('=' :: '"' :: (escAttr p.2 ++ ['"'])))).flatten
      match text, children with
      | none, [] => '<' :: (tag ++ a ++ "/>".data)
      | _, _ =>
          '<' :: (tag ++ a ++ ['>'])
            ++ (match text with | some s => escText s | none => [])
            ++ renderL children
            ++ ("</".data ++ tag ++ ['>'])

def renderL : List XTree → Str
  | [] => []
  | t :: ts => render1 t ++ renderL ts
end

/-- `DataBinder._toXml` (api1.py lines 288-298): compact serialization, no
declaration.  A fragment-list result is rendered element by element and
concatenated; `tostring` on a nested list raises, modelled as `none`. -/
def compactToXml (v : SVal) (suggestedName : Option Str) : Option Str :=
  match toEtreeR v suggestedName with
  | some (.single t) => some (render1 t)
  | some (.frags rs) =>
      match allSingles rs with
      | some ts => some ((ts.map render1).flatten)
      | none => none
  | none => none

/-! ### The event stream of a serialized document

A rendered document denotes the event stream below; a pretty-printed
rendering of the same tree (`toXml`'s `pretty_print=True` path, including the
newline after the declaration and the trailing newline) denotes the same
stream decorated with extra whitespace character events, captured by `Decor`. -/

/-- The character-data events of an element's own text: none for `None` or
the empty string. -/
def textEvents (text : Option Str) : List XEvent :=
  match text with
  | some s => if s.isEmpty then [] else [.chars s]
  | none => []

mutual
/-- The SAX events produced by tokenizing the serialization of an element:
start tag, its text (if any), the children's events, end tag. -/
def eventsOfT : XTree → List XEvent
  | .mk tag attrs text children =>
      .start tag attrs :: (textEvents text ++ eventsOfL children ++ [.stop tag])

def eventsOfL : List XTree → List XEvent
  | [] => []
  | t :: ts => eventsOfT t ++ eventsOfL ts
end

/-- `Decor base dec`: `dec` is `base` with whitespace character events
inserted (the effect of any pretty-printer, which only ever adds whitespace
around markup). -/
inductive Decor : List XEvent → List XEvent → Prop where
  | nil : Decor [] []
  | keep (e : XEvent) {os ds : List XEvent} : Decor os ds → Decor (e :: os) (e :: ds)
  | ws (s : Str) {os ds : List XEvent} : allSpace s → Decor os ds →
      Decor os (.chars s :: ds)

/-! ### Canonical parse image of a serialized value

`canonVal x` is the value the default-typed parse of the serialization of
`x` is expected to produce, with every accumulated text taken up to
`strip` (pretty-printing whitespace normalizes away); it makes the
round-trip claim's "structurally equivalent under the default object node
type" precise.  A scalar becomes a childless node carrying the scalar's
text; a mapping becomes a node whose fields hold the entries in sorted key
order, each value fanned out to the list of its finalized children
(sequences contribute one child per member, in order; an empty sequence
contributes no field at all). -/

/-- Fields resulting from the fan-outs: a key with no children gets no
field, the others get their child list in order. -/
def mkFields (ps : List (Str × List PVal)) : List (Str × PField) :=
  ps.filterMap fun p => if p.2.isEmpty then none else some (p.1, .many p.2)

/-- Child arrival order: each key repeated once per child, in emission
order. -/
def mkOrder (ps : List (Str × List PVal)) : List Str :=
  (ps.map fun p => List.replicate p.2.length p.1).flatten

mutual
def canonVal : SVal → PVal
  | .sBool b => .vNode [] [] [] (if b then "true".data else "false".data)
  | .sInt n => .vNode [] [] [] (pyStrip (intToStr n))
  | .sStr s => .vNode [] [] [] (pyStrip s)
  | .sList _ => .vNone              -- a sequence is not a single element; out of scope
  | .sObj _ _ _ _ _ => .vNone       -- out of the round-trip claim's scope
  | .sDict es =>
      .vNode [] (mkOrder (sortByFst (canonPairs es)))
        (mkFields (sortByFst (canonPairs es))) []

/-- Each entry's fan-out: a sequence value yields one child per member, any
other value yields exactly one child. -/
def canonPairs : List (Str × SVal) → List (Str × List PVal)
  | [] => []
  | (k, .sList xs) :: r => (k, canonList xs) :: canonPairs r
  | (k, v) :: r => (k, [canonVal v]) :: canonPairs r

def canonList : List SVal → List PVal
  | [] => []
  | x :: r => canonVal x :: canonList r
end

/-- The fan-out of one value (the number and identity of siblings its
serialization contributes under one tag). -/
def fanVals (v : SVal) : List PVal :=
  match v with
  | .sList xs => canonList xs
  | _ => [canonVal v]

/-- The expected raw root node of the default-typed parse of the
serialization of a top-level scalar or mapping. -/
def canonRoot (x : SVal) : LiveNode :=
  match canonVal x with
  | .vNode a co f t => ⟨baseType, a, co, f, t⟩
  | _ => ⟨baseType, [], [], [], []⟩   -- unreachable for in-scope values

/-! ### Normalization: texts up to `strip` -/

mutual
/-- Normalize a finalized value: every node text is stripped (sequencing
pretty-printing whitespace away); nothing else changes. -/
def normVal : PVal → PVal
  | .vNode a co f t => .vNode a co (normFields f) (pyStrip t)
  | .vDict f => .vDict (normFields f)
  | v => v

def normFields : List (Str × PField) → List (Str × PField)
  | [] => []
  | (k, f) :: r => (k, normField f) :: normFields r

def normField : PField → PField
  | .one v => .one (normVal v)
  | .many vs => .many (normList vs)

def normList : List PVal → List PVal
  | [] => []
  | v :: r => normVal v :: normList r
end

/-- Normalize a raw (unfinalized) node the same way. -/
def normLive (n : LiveNode) : LiveNode :=
  ⟨n.ty, n.attrs, n.childOrder, normFields n.fields, pyStrip n.text⟩

/-! ### The round-trip scope -/

mutual
/-- A value that round-trips: scalars, well-keyed mappings, and sequences of
non-sequences appearing as mapping values.  Keys must be duplicate-free
(they model Python dict keys), nonempty (lxml cannot serialize an empty tag
name, so `toXml` raises), and must not begin with an underscore: such a key
addresses the parse-side node's internal namespace, where the source
misbehaves although serialization succeeds — `{'_text': 1}` serializes to
`<root><_text>1</_text></root>` but parsing it raises `AttributeError`
(`''.append` on the internal text slot), a `_childOrder` child is diverted
into the internal order list instead of a field, and keys such as
`_finalize` shadow node methods (`TypeError` on the later call).  These
collisions are outside the model's field map (declared boundary, see
`addChild`), so they are excluded here rather than witnessed. -/
def goodVal : SVal → Bool
  | .sBool _ => true
  | .sInt _ => true
  | .sStr _ => true
  | .sList xs => goodElems xs
  | .sDict es => goodEntries es
  | .sObj _ _ _ _ _ => false

def goodEntries : List (Str × SVal) → Bool
  | [] => true
  | (k, v) :: r =>
      (match k with
       | [] => false
       | c :: _ => c ≠ '_')
      && !(r.any (·.1 == k)) && goodVal v && goodEntries r

def goodElems : List SVal → Bool
  | [] => true
  | x :: r => goodElem x && goodElems r

/-- A sequence member: anything but a sequence (or object). -/
def goodElem : SVal → Bool
  | .sList _ => false
  | .sObj _ _ _ _ _ => false
  | .sDict es => goodEntries es
  | _ => true
end

/-- The top level of the round-trip: a scalar or a mapping (a top-level
sequence has no single root element and `toXml` rejects it). -/
def goodTop (v : SVal) : Bool :=
  match v with
  | .sList _ => false
  | .sObj _ _ _ _ _ => false
  | .sDict es => goodEntries es
  | _ => true

/-! ### Remaining specification-side definitions -/

/-- `IsIntLit s n`: `s` is a valid Python integer literal denoting `n` —
optional surrounding whitespace, an optional single sign, then a nonempty
run of decimal digits.  This is the specification-side characterization
against which `pyIntParse` (the model of `int(...)`) is proved correct. -/
def IsIntLit (s : Str) (n : Int) : Prop :=
  ∃ w₁ sg ds w₂ : Str,
    s = w₁ ++ sg ++ ds ++ w₂ ∧
    (∀ c ∈ w₁, pySpace c) ∧ (∀ c ∈ w₂, pySpace c) ∧
    (sg = [] ∨ sg = ['+'] ∨ sg = ['-']) ∧
    ds ≠ [] ∧ (∀ c ∈ ds, c.isDigit) ∧
    n = (if sg = ['-'] then -(digitsToNat ds : Int) else (digitsToNat ds : Int))

/-- The field update performed by one non-single `_addChild` of a finalized
value `v` under tag `k` (create the list if absent, then append). -/
def addOne (fs : List (Str × PField)) (k : Str) (v : PVal) : List (Str × PField) :=
  match lookupF fs k with
  | some (.many vs) => setField fs k (.many (vs ++ [v]))
  | some (.one _) => fs            -- unreachable: `.append` on a non-list raises
  | none => fs ++ [(k, .many [v])]

/-- Cumulative effect of non-single `_addChild` calls for a list of
finalized values under one tag. -/
def addVals (fs : List (Str × PField)) (k : Str) : List PVal → List (Str × PField)
  | [] => fs
  | v :: vs => addVals (addOne fs k v) k vs

/-- Sequential `_addChild` of several child nodes under one tag (the parse
of repeated sibling tags). -/
def addChildren (p : LiveNode) (name : Str) : List LiveNode → Except (LiveNode × PErr) LiveNode
  | [] => .ok p
  | c :: cs =>
      match addChild p name c with
      | .ok p2 => addChildren p2 name cs
      | .error e => .error e

mutual
/-- The event stream of a `_to_etree_r` result: an element's events, or the
concatenation of a fragment list's events. -/
def eventsOfR : ETRes → List XEvent
  | .single t => eventsOfT t
  | .frags rs => eventsOfRL rs

def eventsOfRL : List ETRes → List XEvent
  | [] => []
  | r :: rs => eventsOfR r ++ eventsOfRL rs
end

/-- A run of pure whitespace character events (what a pretty-printer
inserts around markup). -/
def WsEvents (evs : List XEvent) : Prop :=
  ∀ e ∈ evs, ∃ s, e = XEvent.chars s ∧ allSpace s = true

/-- The concatenated character data of a run of character events. -/
def concatChars (evs : List XEvent) : Str :=
  (evs.map fun e => match e with | XEvent.chars s => s | _ => []).flatten

/-- The canonical (stripped) text of a scalar's element. -/
def canonText : SVal → Str
  | .sBool b => if b then "true".data else "false".data
  | .sInt n => pyStrip (intToStr n)
  | .sStr s => pyStrip s
  | _ => []

/-- The canonical child arrival order of a mapping's element. -/
def canonOrderOf : SVal → List Str
  | .sDict es => mkOrder (sortByFst (canonPairs es))
  | _ => []

/-- The canonical fields of a mapping's element. -/
def canonFieldsOf : SVal → List (Str × PField)
  | .sDict es => mkFields (sortByFst (canonPairs es))
  | _ => []

/-- Every field of the association list is list-valued (the shape invariant
of default-typed parents). -/
def allManyF (fs : List (Str × PField)) : Prop :=
  ∀ p ∈ fs, ∃ vs, p.2 = PField.many vs

/-- Every in-progress node on the stack is default-typed with list-valued
fields — the invariant of a parse under an empty type registry. -/
def baseStack (hs : List LiveNode) : Prop :=
  ∀ L ∈ hs, L.ty = baseType ∧ allManyF L.fields

/-- The contract of parsing one serialized value back as a fragment under a
tag `k`, inside an open parent `P` (default binder, any whitespace
decoration): the machine consumes the decorated fragment events without
error, appending the fan-out's finalized children to `P`'s field for `k` —
values that normalize to the canonical fan-out — and at most whitespace to
`P`'s accumulated text. -/
def FragRunOk (v : SVal) : Prop :=
  ∀ ⦃k : Str⦄ ⦃r : ETRes⦄ ⦃evs : List XEvent⦄ ⦃ts : List Str⦄ ⦃closed : Bool⦄
    ⦃P : LiveNode⦄ ⦃hs : List LiveNode⦄ ⦃root : Option LiveNode⦄,
    goodVal v = true → toEtreeR v (some k) = some r → Decor (eventsOfR r) evs →
    ts ≠ [] → P.ty = baseType → allManyF P.fields →
    ∃ (vsAct : List PVal) (w : Str),
      saxRunM [] ⟨ts, closed, P :: hs, root⟩ evs
        = (⟨ts, closed,
            { P with
              childOrder := P.childOrder ++ List.replicate vsAct.length k
              fields := addVals P.fields k vsAct
              text := P.text ++ w } :: hs, root⟩, none) ∧
      normList vsAct = fanVals v ∧ allSpace w = true ∧
      allManyF (addVals P.fields k vsAct)

/-! ## Theorems

### String-level helper lemmas -/

theorem dropWhile_append_all {p : Char → Bool} {l₁ l₂ : Str} (h : ∀ a ∈ l₁, p a) :
    (l₁ ++ l₂).dropWhile p = l₂.dropWhile p := by
  induction l₁ with
  | nil => rfl
  | cons a t ih =>
      simp only [List.cons_append, List.dropWhile_cons, h a (by simp)]
      exact ih fun x hx => h x (by simp [hx])

theorem dropWhile_all {p : Char → Bool} {l : Str} (h : ∀ a ∈ l, p a) :
    l.dropWhile p = [] := by
  have h2 : (l ++ []).dropWhile p = List.dropWhile p [] := dropWhile_append_all h
  simpa using h2

theorem dropWhile_cons_neg {p : Char → Bool} {c : Char} {l : Str} (h : ¬ p c) :
    (c :: l).dropWhile p = c :: l := by
  simp [List.dropWhile_cons, h]

/-- Splitting off the leading whitespace kept by `strip`. -/
theorem pyStrip_space_append {w s : Str} (h : ∀ c ∈ w, pySpace c) :
    pyStrip (w ++ s) = pyStrip s := by
  unfold pyStrip
  rw [dropWhile_append_all h]

theorem dropWhile_head_neg {p : Char → Bool} {s t : Str} {c : Char}
    (h : s.dropWhile p = c :: t) : ¬ p c := by
  induction s with
  | nil => simp at h
  | cons a s ih =>
      by_cases hp : p a
      · exact ih (by simpa [List.dropWhile_cons, hp] using h)
      · rw [List.dropWhile_cons, if_neg hp] at h
        cases h; exact hp

/-- Trailing whitespace is dropped by `strip`. -/
theorem pyStrip_append_space {s w : Str} (h : ∀ c ∈ w, pySpace c) :
    pyStrip (s ++ w) = pyStrip s := by
  unfold pyStrip
  have hw : w.dropWhile pySpace = [] := dropWhile_all h
  rcases hsplit : s.dropWhile pySpace with _ | ⟨c, t⟩
  · have hs : ∀ a ∈ s, pySpace a := by
      rw [← List.dropWhile_eq_nil_iff (p := pySpace)]; exact hsplit
    rw [dropWhile_append_all hs, hw]
  · have h1 : (s ++ w).dropWhile pySpace = (c :: t) ++ w := by
      have : ∀ l, l.dropWhile pySpace = c :: t → (l ++ w).dropWhile pySpace = (c :: t) ++ w := by
        intro l hl
        induction l with
        | nil => simp at hl
        | cons a l ih =>
            by_cases hp : pySpace a
            · rw [List.dropWhile_cons, if_pos hp] at hl
              simpa [List.dropWhile_cons, hp] using ih hl
            · rw [List.dropWhile_cons, if_neg hp] at hl
              cases hl
              simp [List.dropWhile_cons, hp]
      exact this s hsplit
    rw [h1, List.reverse_append,
      dropWhile_append_all (p := pySpace) (by simpa using h)]

/-- A whitespace string strips to nothing. -/
theorem pyStrip_all_space {w : Str} (h : ∀ c ∈ w, pySpace c) : pyStrip w = [] := by
  have := pyStrip_space_append (s := []) h
  simpa using this

/-- The two-sided form used for accumulated element text. -/
theorem pyStrip_pad {w₁ s w₂ : Str} (h₁ : ∀ c ∈ w₁, pySpace c) (h₂ : ∀ c ∈ w₂, pySpace c) :
    pyStrip (w₁ ++ s ++ w₂) = pyStrip s := by
  rw [List.append_assoc, pyStrip_space_append h₁, pyStrip_append_space h₂]

theorem allSpace_iff {w : Str} : allSpace w = true ↔ ∀ c ∈ w, pySpace c := by
  simp [allSpace, List.all_eq_true]

/-! ### `int(...)` coercion is correct against `IsIntLit` -/

theorem isDigit_not_space {c : Char} (h : c.isDigit = true) : pySpace c = false := by
  by_contra hx
  have hx2 : pySpace c = true := by
    cases hp : pySpace c
    · exact absurd hp hx
    · rfl
  have : c = ' ' ∨ c = '\t' ∨ c = '\n' ∨ c = '\r' ∨ c = '\x0b' ∨ c = '\x0c' := by
    simpa [pySpace, or_assoc] using hx2
  rcases this with rfl | rfl | rfl | rfl | rfl | rfl <;> exact absurd h (by decide)

/-- Any string splits as leading whitespace, its strip, trailing whitespace. -/
theorem pyStrip_decomp (s : Str) :
    ∃ w₁ w₂ : Str, s = w₁ ++ pyStrip s ++ w₂ ∧
      (∀ c ∈ w₁, pySpace c) ∧ (∀ c ∈ w₂, pySpace c) := by
  have hd : s.dropWhile pySpace =
      pyStrip s ++ ((s.dropWhile pySpace).reverse.takeWhile pySpace).reverse :=
    calc s.dropWhile pySpace
        = ((s.dropWhile pySpace).reverse).reverse := (List.reverse_reverse _).symm
      _ = ((s.dropWhile pySpace).reverse.takeWhile pySpace
            ++ (s.dropWhile pySpace).reverse.dropWhile pySpace).reverse := by
            rw [List.takeWhile_append_dropWhile]
      _ = pyStrip s ++ ((s.dropWhile pySpace).reverse.takeWhile pySpace).reverse := by
            rw [List.reverse_append]; rfl
  refine ⟨s.takeWhile pySpace, ((s.dropWhile pySpace).reverse.takeWhile pySpace).reverse,
    ?_, ?_, ?_⟩
  · rw [List.append_assoc, ← hd, List.takeWhile_append_dropWhile]
  · intro c hc; exact List.mem_takeWhile_imp hc
  · intro c hc
    rw [List.mem_reverse] at hc
    exact List.mem_takeWhile_imp hc

/-- A string with non-whitespace first and last characters is its own strip. -/
theorem pyStrip_of_ends {c d : Char} {m : Str} (hc : pySpace c = false) (hd : pySpace d = false)
    (h : m.reverse = d :: (m.reverse.tail) ∧ m = c :: m.tail) : pyStrip m = m := by
  obtain ⟨hrev, hm⟩ := h
  unfold pyStrip
  rw [hm, dropWhile_cons_neg (by simp [hc]), ← hm, hrev,
    dropWhile_cons_neg (by simp [hd]), ← hrev, List.reverse_reverse]

theorem pyIntParse_sound {s : Str} {n : Int} (h : pyIntParse s = some n) : IsIntLit s n := by
  obtain ⟨w₁, w₂, hs, hw₁, hw₂⟩ := pyStrip_decomp s
  unfold pyIntParse at h
  rcases hst : pyStrip s with _ | ⟨c, rest⟩ <;> rw [hst] at h hs
  · simp [pyIntAux] at h
  · simp only [pyIntAux] at h
    by_cases hplus : c = '+'
    · rw [if_pos hplus] at h
      by_cases hck : rest ≠ [] ∧ rest.all Char.isDigit
      · rw [if_pos hck] at h
        refine ⟨w₁, ['+'], rest, w₂, by simpa [hplus] using hs, hw₁, hw₂, by simp, hck.1,
          ?_, ?_⟩
        · intro x hx
          exact (List.all_eq_true.mp hck.2) x hx
        · cases h; simp
      · rw [if_neg hck] at h; simp at h
    · rw [if_neg hplus] at h
      by_cases hminus : c = '-'
      · rw [if_pos hminus] at h
        by_cases hck : rest ≠ [] ∧ rest.all Char.isDigit
        · rw [if_pos hck] at h
          refine ⟨w₁, ['-'], rest, w₂, by simpa [hminus] using hs, hw₁, hw₂, by simp, hck.1,
            ?_, ?_⟩
          · intro x hx
            exact (List.all_eq_true.mp hck.2) x hx
          · cases h; simp
        · rw [if_neg hck] at h; simp at h
      · rw [if_neg hminus] at h
        by_cases hck : (c :: rest).all Char.isDigit
        · rw [if_pos hck] at h
          refine ⟨w₁, [], c :: rest, w₂, by simpa using hs, hw₁, hw₂, by simp, by simp,
            ?_, ?_⟩
          · intro x hx
            exact (List.all_eq_true.mp hck) x hx
          · cases h; simp
        · rw [if_neg hck] at h; simp at h

theorem pyIntParse_complete {s : Str} {n : Int} (h : IsIntLit s n) : pyIntParse s = some n := by
  obtain ⟨w₁, sg, ds, w₂, hs, hw₁, hw₂, hsg, hds, hdig, hn⟩ := h
  obtain ⟨d, dt, hdt⟩ : ∃ d dt, ds = d :: dt := by
    cases ds with
    | nil => exact absurd rfl hds
    | cons d dt => exact ⟨d, dt, rfl⟩
  obtain ⟨e, et, het⟩ : ∃ e et, ds.reverse = e :: et := by
    cases hrev : ds.reverse with
    | nil => exact absurd (by simpa using congrArg List.reverse hrev) hds
    | cons e et => exact ⟨e, et, rfl⟩
  have he : e ∈ ds := by
    rw [← List.mem_reverse, het]; simp
  have hstrip : pyStrip s = sg ++ ds := by
    rw [hs, show w₁ ++ sg ++ ds ++ w₂ = w₁ ++ (sg ++ ds) ++ w₂ by simp,
      pyStrip_pad hw₁ hw₂]
    have hrev : (sg ++ ds).reverse = e :: (et ++ sg.reverse) := by
      rw [List.reverse_append, het]; rfl
    have hhead : ∃ c0 t0, sg ++ ds = c0 :: t0 ∧ pySpace c0 = false := by
      rcases hsg with rfl | rfl | rfl
      · exact ⟨d, dt, by simpa using hdt, isDigit_not_space (hdig d (by simp [hdt]))⟩
      · exact ⟨'+', ds, rfl, by decide⟩
      · exact ⟨'-', ds, rfl, by decide⟩
    obtain ⟨c0, t0, hc0, hc0s⟩ := hhead
    exact pyStrip_of_ends hc0s (isDigit_not_space (hdig e he))
      ⟨by rw [hrev]; rfl, by rw [hc0]; rfl⟩
  have hallday : ds.all Char.isDigit := List.all_eq_true.mpr fun x hx => hdig x hx
  unfold pyIntParse
  rcases hsg with rfl | rfl | rfl
  · rw [show ([] : Str) ++ ds = ds by simp, hdt] at hstrip
    rw [hstrip]
    have hdd : d.isDigit = true := hdig d (by simp [hdt])
    have hdp : d ≠ '+' := by rintro rfl; exact absurd hdd (by decide)
    have hdm : d ≠ '-' := by rintro rfl; exact absurd hdd (by decide)
    simp [pyIntAux, hdp, hdm, ← hdt, hallday, hn]
  · rw [show ['+'] ++ ds = '+' :: ds by rfl] at hstrip
    rw [hstrip]
    simp [pyIntAux, hds, hallday, hn]
  · rw [show ['-'] ++ ds = '-' :: ds by rfl] at hstrip
    rw [hstrip]
    simp [pyIntAux, hds, hallday, hn]

theorem pyIntParse_iff {s : Str} {n : Int} : pyIntParse s = some n ↔ IsIntLit s n :=
  ⟨pyIntParse_sound, pyIntParse_complete⟩

theorem pyIntParse_none_iff {s : Str} : pyIntParse s = none ↔ ∀ n, ¬ IsIntLit s n := by
  constructor
  · intro h n hl
    rw [pyIntParse_complete hl] at h; cases h
  · intro h
    cases hp : pyIntParse s with
    | none => rfl
    | some m => exact absurd (pyIntParse_sound hp) (h m)

/-! ### Claim C3: integer-node finalization -/

/-- **C3** (amended): integer-node finalization returns `0` for exactly-empty
accumulated text (and for literals denoting zero), returns the denoted
integer for every valid integer literal (`IsIntLit`), and raises — the
`ValueError` that the spec's taxonomy names `FormatError` — exactly when the
text is non-empty and not a valid integer literal.  In particular non-empty
all-whitespace text raises instead of yielding `0`, which is the one
correction to the claim. -/
theorem c3_integer_finalize (a : List (Str × Str)) (co : List Str)
    (f : List (Str × PField)) (t : Str) :
    (t = [] → finalize ⟨integerType, a, co, f, t⟩ = .ok (.vInt 0)) ∧
    (∀ n : Int, IsIntLit t n → finalize ⟨integerType, a, co, f, t⟩ = .ok (.vInt n)) ∧
    (finalize ⟨integerType, a, co, f, t⟩ = .error .valueError ↔
      t ≠ [] ∧ ∀ n : Int, ¬ IsIntLit t n) := by
  refine ⟨?_, ?_, ?_, ?_⟩
  · rintro rfl; rfl
  · intro n hn
    have hp : pyIntParse t = some n := pyIntParse_complete hn
    have ht : t ≠ [] := by
      obtain ⟨w₁, sg, ds, w₂, hs, _, _, _, hds, _, _⟩ := hn
      rw [hs]
      intro hcon
      simp only [List.append_eq_nil] at hcon
      exact hds hcon.1.2
    simp [finalize, integerType, hp, List.isEmpty_iff, ht]
  · intro herr
    by_cases ht : t = []
    · subst ht
      simp [finalize, integerType] at herr
    · refine ⟨ht, ?_⟩
      rw [← pyIntParse_none_iff]
      cases hp : pyIntParse t with
      | none => rfl
      | some m =>
          simp [finalize, integerType, hp, List.isEmpty_iff, ht] at herr
  · rintro ⟨ht, hnone⟩
    have hp : pyIntParse t = none := pyIntParse_none_iff.mpr hnone
    simp [finalize, integerType, hp, List.isEmpty_iff, ht]

/-- **C3** witness: finalizing text `" 42 "` yields `42`. -/
theorem c3_integer_finalize_witness :
    finalize ⟨integerType, [], [], [], " 42 ".data⟩ = .ok (.vInt 42) := by
  refine (c3_integer_finalize [] [] [] (" 42 ".data)).2.1 42 ?_
  exact ⟨[' '], [], ['4', '2'], [' '], by decide, by decide, by decide, Or.inl rfl,
    by decide, by decide, by decide⟩

/-- **C3** counterexample to the claim as stated: the text `" "` is
all-whitespace after stripping, so the claim demands the value `0`; the code
runs `int(' ')` (the text is truthy) and raises a `ValueError` instead. -/
theorem c3_whitespace_counterexample :
    finalize ⟨integerType, [], [], [], [' ']⟩ = .error .valueError ∧
    pyStrip [' '] = [] ∧ [' '] ≠ [] :=
  ⟨rfl, rfl, by decide⟩

/-! ### Field update lemmas -/

theorem alookup_cons {α : Type} (p : Str × α) (r : List (Str × α)) (k : Str) :
    alookup (p :: r) k = if p.1 = k then some p.2 else alookup r k := rfl

theorem alookup_setField_self (fs : List (Str × PField)) (k : Str) (f : PField) :
    alookup (setField fs k f) k = some f := by
  induction fs with
  | nil => simp [setField, alookup]
  | cons p r ih =>
      by_cases hk : p.1 = k
      · simp only [setField, hk, if_true, alookup_cons, if_pos rfl]
      · simp only [setField, hk, if_false, alookup_cons, if_neg hk]
        exact ih

theorem alookup_setField_other {fs : List (Str × PField)} {k k' : Str} (h : k' ≠ k)
    (f : PField) : alookup (setField fs k f) k' = alookup fs k' := by
  have h2 : k ≠ k' := fun e => h e.symm
  induction fs with
  | nil => simp [setField, alookup, h2]
  | cons p r ih =>
      by_cases hk : p.1 = k
      · simp only [setField, hk, if_true, alookup_cons]
        rw [if_neg h2, if_neg h2]
      · simp only [setField, hk, if_false, alookup_cons]
        by_cases hk' : p.1 = k'
        · rw [if_pos hk', if_pos hk']
        · rw [if_neg hk', if_neg hk', ih]

theorem setField_append_fresh {fs : List (Str × PField)} {k : Str}
    (h : alookup fs k = none) (f g : PField) :
    setField (fs ++ [(k, f)]) k g = fs ++ [(k, g)] := by
  induction fs with
  | nil => simp [setField]
  | cons p r ih =>
      have h1 : p.1 ≠ k := by
        intro e
        rw [alookup_cons, if_pos e] at h; cases h
      have h2 : alookup r k = none := by
        rw [alookup_cons, if_neg h1] at h; exact h
      simp only [List.cons_append, setField, h1, if_false]
      exact congrArg (p :: ·) (ih h2)

theorem alookup_append_fresh {α : Type} {fs : List (Str × α)} {k : Str}
    (h : alookup fs k = none) (gs : List (Str × α)) :
    alookup (fs ++ gs) k = alookup gs k := by
  induction fs with
  | nil => rfl
  | cons p r ih =>
      have h1 : p.1 ≠ k := by
        intro e
        rw [alookup_cons, if_pos e] at h; cases h
      have h2 : alookup r k = none := by
        rw [alookup_cons, if_neg h1] at h; exact h
      rw [List.cons_append, alookup_cons, if_neg h1]
      exact ih h2

theorem alookup_append_left {α : Type} {fs : List (Str × α)} {k : Str} {v : α}
    (h : alookup fs k = some v) (gs : List (Str × α)) :
    alookup (fs ++ gs) k = some v := by
  induction fs with
  | nil => cases h
  | cons p r ih =>
      by_cases h1 : p.1 = k
      · rw [alookup_cons, if_pos h1] at h
        rw [List.cons_append, alookup_cons, if_pos h1]
        exact h
      · rw [alookup_cons, if_neg h1] at h
        rw [List.cons_append, alookup_cons, if_neg h1]
        exact ih h

/-! ### `_addChild` characterization -/

theorem setField_setField (fs : List (Str × PField)) (k : Str) (f g : PField) :
    setField (setField fs k f) k g = setField fs k g := by
  induction fs with
  | nil => simp [setField]
  | cons p r ih =>
      by_cases hk : p.1 = k
      · simp [setField, hk]
      · simp only [setField, hk, if_false]
        exact congrArg (p :: ·) ih

/-- A single-child `_addChild`: direct overwrite of the field. -/
theorem addChild_single {p : LiveNode} {name : Str} {c : LiveNode} {v : PVal}
    (hmem : name ∈ p.ty.singleChildren) (hfin : finalize c = .ok v) :
    addChild p name c = .ok { p with
      childOrder := p.childOrder ++ [name]
      fields := setField p.fields name (.one v) } := by
  simp [addChild, hmem, hfin]

/-- A non-single `_addChild` whose tag currently stores a list, or nothing:
the finalized child is appended (`addOne`). -/
theorem addChild_base {p : LiveNode} {name : Str} {c : LiveNode} {v : PVal}
    (hmem : name ∉ p.ty.singleChildren)
    (hok : lookupF p.fields name = none ∨ ∃ vs0, lookupF p.fields name = some (.many vs0))
    (hfin : finalize c = .ok v) :
    addChild p name c = .ok { p with
      childOrder := p.childOrder ++ [name]
      fields := addOne p.fields name v } := by
  rcases hok with hnone | ⟨vs0, hmany⟩
  · have hhf : hasField p.fields name = false := by
      simp [hasField, lookupF] at hnone ⊢
      simp [hnone]
    have hlk2 : lookupF (p.fields ++ [(name, PField.many [])]) name = some (.many []) := by
      unfold lookupF at hnone ⊢
      rw [alookup_append_fresh hnone]
      simp [alookup]
    simp only [addChild, hmem, if_false, hhf, Bool.false_eq_true, if_true, hlk2, hfin]
    unfold addOne
    rw [hnone]
    have := setField_append_fresh (f := PField.many []) (g := PField.many [v]) hnone
    simp only [List.nil_append] at this ⊢
    rw [this]
  · have hhf : hasField p.fields name = true := by
      simp [hasField, lookupF] at hmany ⊢
      simp [hmany]
    simp only [addChild, hmem, if_false, hhf, if_true, hmany, hfin]
    unfold addOne
    rw [hmany]

/-- `addOne` keeps the tag's field a list. -/
theorem addOne_lookup {fs : List (Str × PField)} {k : Str} {v : PVal}
    (hok : lookupF fs k = none ∨ ∃ vs0, lookupF fs k = some (.many vs0)) :
    ∃ vs1, lookupF (addOne fs k v) k = some (.many vs1) := by
  rcases hok with hnone | ⟨vs0, hmany⟩
  · refine ⟨[v], ?_⟩
    unfold addOne lookupF at *
    rw [hnone, alookup_append_fresh hnone]
    simp [alookup]
  · refine ⟨vs0 ++ [v], ?_⟩
    unfold addOne lookupF at *
    rw [hmany]
    exact alookup_setField_self ..

/-- Other tags are untouched by `addOne`. -/
theorem addOne_lookup_other {fs : List (Str × PField)} {k k' : Str} {v : PVal}
    (h : k' ≠ k) : lookupF (addOne fs k v) k' = lookupF fs k' := by
  unfold addOne lookupF
  cases hlk : alookup fs k with
  | none =>
      cases hlk2 : alookup fs k' with
      | none => rw [alookup_append_fresh hlk2]; simp [alookup, Ne.symm h]
      | some f => rw [alookup_append_left hlk2]
  | some f =>
      cases f with
      | one v0 => rfl
      | many vs0 => exact alookup_setField_other h _

/-- Accumulated form of repeated non-single `_addChild` under one tag:
append to the existing list. -/
theorem addVals_lookup_many {k : Str} :
    ∀ (vs : List PVal) {fs : List (Str × PField)} {vs0 : List PVal},
    lookupF fs k = some (.many vs0) →
    lookupF (addVals fs k vs) k = some (.many (vs0 ++ vs)) := by
  intro vs
  induction vs with
  | nil => intro fs vs0 h; simpa [addVals] using h
  | cons v vs ih =>
      intro fs vs0 h
      have h1 : addOne fs k v = setField fs k (.many (vs0 ++ [v])) := by
        unfold addOne lookupF at *
        rw [h]
      have h2 : lookupF (addOne fs k v) k = some (.many (vs0 ++ [v])) := by
        rw [h1]
        exact alookup_setField_self ..
      have := ih h2
      simpa [addVals, List.append_assoc] using this

/-- Fresh tag: the accumulated list is exactly the finalized children. -/
theorem addVals_lookup_fresh {k : Str} {fs : List (Str × PField)} {v : PVal} (vs : List PVal)
    (h : lookupF fs k = none) :
    lookupF (addVals fs k (v :: vs)) k = some (.many (v :: vs)) := by
  have h1 : addOne fs k v = fs ++ [(k, .many [v])] := by
    unfold addOne lookupF at *
    rw [h]
  have h2 : lookupF (addOne fs k v) k = some (.many [v]) := by
    rw [h1]
    unfold lookupF at *
    rw [alookup_append_fresh h]
    simp [alookup]
  have := addVals_lookup_many vs h2
  simpa [addVals] using this

/-- Repeated single-child `_addChild`: every occurrence overwrites, only the
last one's finalized value remains. -/
theorem addChildren_single {name : Str} :
    ∀ {kids : List LiveNode} {vs : List PVal} {p : LiveNode} {v0 : PVal},
    List.Forall₂ (fun c v => finalize c = .ok v) kids vs →
    name ∈ p.ty.singleChildren → vs.getLast? = some v0 →
    addChildren p name kids = .ok { p with
      childOrder := p.childOrder ++ List.replicate kids.length name
      fields := setField p.fields name (.one v0) } := by
  intro kids
  induction kids with
  | nil => intro vs p v0 hf hmem hlast; cases hf; cases hlast
  | cons c kids ih =>
      intro vs p v0 hf hmem hlast
      rcases hf with _ | ⟨hfin, hftail⟩
      rename_i v vs'
      have hstep := addChild_single hmem hfin
      cases kids with
      | nil =>
          cases hftail
          rw [List.getLast?_singleton] at hlast
          cases hlast
          simp [addChildren, hstep, List.replicate]
      | cons c2 kids2 =>
          rcases hftail with _ | ⟨hfin2, hftail2⟩
          rename_i v2 vs2
          have hlast2 : (v2 :: vs2).getLast? = some v0 := by
            rw [List.getLast?_cons_cons] at hlast
            exact hlast
          have hrec := ih (p := { p with
              childOrder := p.childOrder ++ [name]
              fields := setField p.fields name (.one v) })
            (List.Forall₂.cons hfin2 hftail2) hmem hlast2
          have hgoal : addChildren p name (c :: c2 :: kids2)
              = addChildren { p with
                  childOrder := p.childOrder ++ [name]
                  fields := setField p.fields name (.one v) } name (c2 :: kids2) := by
            rw [addChildren, hstep]
          rw [hgoal, hrec]
          have hco : p.childOrder ++ [name] ++ List.replicate (c2 :: kids2).length name
              = p.childOrder ++ List.replicate (c :: c2 :: kids2).length name := by
            rw [List.append_assoc, List.length_cons (a := c), List.replicate_succ]
            rfl
          simp only [hco, setField_setField]

/-- Repeated non-single `_addChild`: the finalized values are appended in
arrival order (`addVals`). -/
theorem addChildren_base {name : Str} :
    ∀ {kids : List LiveNode} {vs : List PVal} {p : LiveNode},
    List.Forall₂ (fun c v => finalize c = .ok v) kids vs →
    name ∉ p.ty.singleChildren →
    (lookupF p.fields name = none ∨ ∃ vs0, lookupF p.fields name = some (.many vs0)) →
    addChildren p name kids = .ok { p with
      childOrder := p.childOrder ++ List.replicate kids.length name
      fields := addVals p.fields name vs } := by
  intro kids
  induction kids with
  | nil =>
      intro vs p hf hmem hok
      cases hf
      simp [addChildren, addVals]
  | cons c kids ih =>
      intro vs p hf hmem hok
      rcases hf with _ | ⟨hfin, hftail⟩
      rename_i v vs'
      have hstep := addChild_base hmem hok hfin
      have hok2 : lookupF (addOne p.fields name v) name = none ∨
          ∃ vs0, lookupF (addOne p.fields name v) name = some (.many vs0) := by
        obtain ⟨vs1, h1⟩ := addOne_lookup hok
        exact Or.inr ⟨vs1, h1⟩
      have hrec := ih (p := { p with
          childOrder := p.childOrder ++ [name]
          fields := addOne p.fields name v }) hftail hmem hok2
      have hgoal : addChildren p name (c :: kids)
          = addChildren { p with
              childOrder := p.childOrder ++ [name]
              fields := addOne p.fields name v } name kids := by
        rw [addChildren, hstep]
      rw [hgoal, hrec]
      have hco : p.childOrder ++ [name] ++ List.replicate kids.length name
          = p.childOrder ++ List.replicate (c :: kids).length name := by
        rw [List.append_assoc, List.length_cons (a := c), List.replicate_succ]
        rfl
      simp only [hco]
      rfl

/-! ### Claim C4: single-child overwrite vs. list accumulation -/

/-- **C4** (confirmed): when a tag is declared in `_singleChildren`, repeated
occurrences under one parent leave exactly the finalized value of the last
occurrence, stored directly (never a list); a tag not so declared
accumulates the finalized values into an ordered list in arrival order.
Concretely, parsing `<x><foo>1</foo><foo>2</foo></x>` with `x` declaring
`foo` single-child and `foo` bound to the integer node yields `x.foo == 2`. -/
theorem c4_single_child_overwrite :
    (∀ (p : LiveNode) (name : Str) (kids : List LiveNode) (vs : List PVal) (v0 : PVal),
      List.Forall₂ (fun c v => finalize c = .ok v) kids vs →
      name ∈ p.ty.singleChildren → vs.getLast? = some v0 →
      ∃ p', addChildren p name kids = .ok p' ∧
        lookupF p'.fields name = some (.one v0)) ∧
    (∀ (p : LiveNode) (name : Str) (kids : List LiveNode) (vs : List PVal),
      List.Forall₂ (fun c v => finalize c = .ok v) kids vs →
      name ∉ p.ty.singleChildren → lookupF p.fields name = none → kids ≠ [] →
      ∃ p', addChildren p name kids = .ok p' ∧
        lookupF p'.fields name = some (.many vs)) ∧
    parseString [("x".data, ⟨.base, ["foo".data]⟩), ("foo".data, integerType)] ⟨[], none⟩
      [.start ("x".data) [], .start ("foo".data) [], .chars ("1".data), .stop ("foo".data),
       .start ("foo".data) [], .chars ("2".data), .stop ("foo".data), .stop ("x".data)]
      = (⟨[], none⟩, .ok (some ⟨⟨.base, ["foo".data]⟩, [], ["foo".data, "foo".data],
          [("foo".data, .one (.vInt 2))], []⟩)) := by
  refine ⟨?_, ?_, rfl⟩
  · intro p name kids vs v0 hf hmem hlast
    refine ⟨_, addChildren_single hf hmem hlast, ?_⟩
    exact alookup_setField_self ..
  · intro p name kids vs hf hmem hnone hne
    refine ⟨_, addChildren_base hf hmem (Or.inl hnone), ?_⟩
    rcases hf with _ | ⟨hfin, hftail⟩
    · exact absurd rfl hne
    · exact addVals_lookup_fresh _ hnone

/-- **C4** witness: two `foo` children finalizing to `1` then `2` under a
single-child declaration leave `foo = 2`, stored directly. -/
theorem c4_single_child_overwrite_witness :
    ∃ p', addChildren ⟨⟨.base, ["foo".data]⟩, [], [], [], []⟩ ("foo".data)
        [⟨integerType, [], [], [], "1".data⟩, ⟨integerType, [], [], [], "2".data⟩]
        = .ok p' ∧
      lookupF p'.fields ("foo".data) = some (.one (.vInt 2)) := by
  refine c4_single_child_overwrite.1 ⟨⟨.base, ["foo".data]⟩, [], [], [], []⟩ ("foo".data)
    _ [.vInt 1, .vInt 2] (.vInt 2) ?_ (by decide) rfl
  exact List.Forall₂.cons rfl (List.Forall₂.cons rfl List.Forall₂.nil)

/-! ### Claim C5: the three-key child ordering -/

theorem tripLe_total (p q : Bool × Nat × Str) : tripLe p q ∨ tripLe q p := by
  unfold tripLe
  rcases lt_trichotomy p.1 q.1 with h | h | h
  · exact Or.inl (Or.inl h)
  · rcases lt_trichotomy p.2.1 q.2.1 with h2 | h2 | h2
    · exact Or.inl (Or.inr ⟨h, Or.inl h2⟩)
    · rcases le_total p.2.2 q.2.2 with h3 | h3
      · exact Or.inl (Or.inr ⟨h, Or.inr ⟨h2, h3⟩⟩)
      · exact Or.inr (Or.inr ⟨h.symm, Or.inr ⟨h2.symm, h3⟩⟩)
    · exact Or.inr (Or.inr ⟨h.symm, Or.inl h2⟩)
  · exact Or.inr (Or.inl h)

theorem tripLe_trans {p q r : Bool × Nat × Str} (h1 : tripLe p q) (h2 : tripLe q r) :
    tripLe p r := by
  unfold tripLe at *
  rcases h1 with h1 | ⟨e1, h1⟩ <;> rcases h2 with h2 | ⟨e2, h2⟩
  · exact Or.inl (h1.trans h2)
  · exact Or.inl (e2 ▸ h1)
  · exact Or.inl (e1 ▸ h2)
  · refine Or.inr ⟨e1.trans e2, ?_⟩
    rcases h1 with h1 | ⟨f1, g1⟩ <;> rcases h2 with h2 | ⟨f2, g2⟩
    · exact Or.inl (h1.trans h2)
    · exact Or.inl (f2 ▸ h1)
    · exact Or.inl (f1 ▸ h2)
    · exact Or.inr ⟨f1.trans f2, g1.trans g2⟩

theorem tripLe_antisymm {p q : Bool × Nat × Str} (h1 : tripLe p q) (h2 : tripLe q p) :
    p = q := by
  unfold tripLe at *
  rcases h1 with h1 | ⟨e1, h1⟩ <;> rcases h2 with h2 | ⟨e2, h2⟩
  · exact absurd (h1.trans h2) (lt_irrefl _)
  · exact absurd (e2 ▸ h1) (lt_irrefl _)
  · exact absurd (e1 ▸ h2) (lt_irrefl _)
  · rcases h1 with h1 | ⟨f1, g1⟩ <;> rcases h2 with h2 | ⟨f2, g2⟩
    · exact absurd (h1.trans h2) (lt_irrefl _)
    · exact absurd (f2 ▸ h1) (lt_irrefl _)
    · exact absurd (f1 ▸ h2) (lt_irrefl _)
    · exact Prod.ext e1 (Prod.ext f1 (le_antisymm g1 g2))

instance (order : List Str) : IsTotal Str (keyLe order) :=
  ⟨fun _ _ => tripLe_total _ _⟩

instance (order : List Str) : IsTrans Str (keyLe order) :=
  ⟨fun _ _ _ => tripLe_trans⟩

instance (order : List Str) : IsAntisymm Str (keyLe order) := by
  refine ⟨fun a b h1 h2 => ?_⟩
  have h3 := tripLe_antisymm h1 h2
  have h4 := congrArg (fun t : Bool × Nat × Str => t.2.2) h3
  simpa [childKey] using h4

theorem getChildOrder_perm (items order : List Str) :
    (getChildOrder items order).Perm items :=
  List.perm_insertionSort _ _

theorem getChildOrder_sorted (items order : List Str) :
    List.Sorted (keyLe order) (getChildOrder items order) :=
  List.sorted_insertionSort _ _

/-- The sort key is injective (its third component is the item), so the
sorted result is determined by the multiset of items alone. -/
theorem getChildOrder_eq_of_perm {l₁ l₂ : List Str} (order : List Str) (h : l₁.Perm l₂) :
    getChildOrder l₁ order = getChildOrder l₂ order :=
  List.eq_of_perm_of_sorted
    ((getChildOrder_perm l₁ order).trans (h.trans (getChildOrder_perm l₂ order).symm))
    (getChildOrder_sorted l₁ order) (getChildOrder_sorted l₂ order)

/-- **C5** (confirmed): child emission order for a generic object is the
three-key sort: declared tags sort before undeclared ones, declared tags
follow their position in the ordering descriptor, remaining ties fall back
to the tag name's natural order; the result is a sorted permutation of the
field names, determined independently of field storage order.  Concretely,
an object with descriptor `["b","a"]` and fields `{a:1, b:2}` serializes as
`<x><b>2</b><a>1</a></x>` for either storage order of the fields. -/
theorem c5_child_order :
    (∀ (items order : List Str),
      (getChildOrder items order).Perm items ∧
      List.Sorted (keyLe order) (getChildOrder items order)) ∧
    (∀ (l₁ l₂ order : List Str), l₁.Perm l₂ →
      getChildOrder l₁ order = getChildOrder l₂ order) ∧
    (∀ (order : List Str) (a b : Str), a ∈ order → b ∉ order → keyLe order a b) ∧
    (∀ (order : List Str) (a b : Str), a ∈ order → b ∈ order →
      order.indexOf a < order.indexOf b → keyLe order a b) ∧
    (∀ (order : List Str) (a b : Str), a ∉ order → b ∉ order →
      (keyLe order a b ↔ a ≤ b)) ∧
    (compactToXml
        (.sObj ("x".data) [] [("a".data, .sInt 1), ("b".data, .sInt 2)]
          ["b".data, "a".data] []) none
      = some ("<x><b>2</b><a>1</a></x>".data) ∧
     compactToXml
        (.sObj ("x".data) [] [("b".data, .sInt 2), ("a".data, .sInt 1)]
          ["b".data, "a".data] []) none
      = some ("<x><b>2</b><a>1</a></x>".data)) := by
  refine ⟨fun items order => ⟨getChildOrder_perm items order, getChildOrder_sorted items order⟩,
    fun l₁ l₂ order h => getChildOrder_eq_of_perm order h, ?_, ?_, ?_, by decide, by decide⟩
  · intro order a b ha hb
    unfold keyLe tripLe childKey
    left
    simp [ha, hb]
  · intro order a b ha hb hidx
    unfold keyLe tripLe childKey
    right
    refine ⟨by simp [ha, hb], Or.inl ?_⟩
    simpa [ha, hb] using hidx
  · intro order a b ha hb
    unfold keyLe tripLe childKey
    simp [ha, hb]

/-- **C5** witness: instantiating the storage-order independence at the two
orders of the example's fields. -/
theorem c5_child_order_witness :
    getChildOrder ["a".data, "b".data] ["b".data, "a".data]
      = getChildOrder ["b".data, "a".data] ["b".data, "a".data] ∧
    getChildOrder ["a".data, "b".data] ["b".data, "a".data] = ["b".data, "a".data] := by
  constructor
  · exact c5_child_order.2.1 _ _ _ (List.Perm.swap _ _ _)
  · decide

/-! ### Claim C6: sequence fan-out -/

/-- A non-sequence value serializes to a single element carrying the
suggested tag. -/
theorem toEtreeR_single_of_not_list {v : SVal} (h : ∀ xs, v ≠ .sList xs) {n : Str} {r : ETRes}
    (hr : toEtreeR v (some n) = some r) : ∃ t, r = .single t ∧ t.tag = n := by
  cases v with
  | sBool b =>
      rw [toEtreeR] at hr
      cases hr
      exact ⟨_, rfl, rfl⟩
  | sInt m =>
      rw [toEtreeR] at hr
      cases hr
      exact ⟨_, rfl, rfl⟩
  | sStr s =>
      rw [toEtreeR] at hr
      cases hr
      exact ⟨_, rfl, rfl⟩
  | sList xs => exact absurd rfl (h xs)
  | sDict es =>
      rw [toEtreeR] at hr
      rcases h1 : serFields es with _ | rs
      · simp only [h1] at hr
        cases hr
      · simp only [h1] at hr
        rcases h2 : addAll [] (sortByFst rs) with _ | cs
        · simp only [h2] at hr
          cases hr
        · simp only [h2] at hr
          cases hr
          exact ⟨_, rfl, rfl⟩
  | sObj c a f co t =>
      rw [toEtreeR] at hr
      rcases h1 : serFields f with _ | rs
      · simp only [h1] at hr
        cases hr
      · simp only [h1] at hr
        rcases h2 : addAllKeys rs (getChildOrder (f.map (·.1)) co) [] with _ | cs
        · simp only [h2] at hr
          cases hr
        · simp only [h2] at hr
          cases hr
          exact ⟨_, rfl, rfl⟩

/-- The list branch is the member-wise serialization. -/
theorem toEtreeR_list_eq {xs : List SVal} {n : Option Str} {r : ETRes}
    (h : toEtreeR (.sList xs) n = some r) :
    ∃ rs, toEtreeList xs n = some rs ∧ r = .frags rs := by
  rw [toEtreeR] at h
  rcases h1 : toEtreeList xs n with _ | rs
  · simp only [h1] at h
    cases h
  · simp only [h1] at h
    cases h
    exact ⟨rs, rfl, rfl⟩

theorem toEtreeList_cons_inv {x : SVal} {xs : List SVal} {n : Option Str} {rs : List ETRes}
    (h : toEtreeList (x :: xs) n = some rs) :
    ∃ r rs2, toEtreeR x n = some r ∧ toEtreeList xs n = some rs2 ∧ rs = r :: rs2 := by
  rw [toEtreeList] at h
  rcases h1 : toEtreeR x n with _ | r
  · simp only [h1] at h
    cases h
  · simp only [h1] at h
    rcases h2 : toEtreeList xs n with _ | rs2
    · simp only [h2] at h
      cases h
    · simp only [h2] at h
      cases h
      exact ⟨r, rs2, rfl, rfl, rfl⟩

/-- **C10** (confirmed): serializing a non-empty top-level sequence produces
a plain list of sibling fragments with no single root, so the
pretty-printing entry point `toXml` raises (no document is returned);
only the compact `_toXml` succeeds, returning the concatenation of the
rendered sibling fragments — concretely `<n>1</n><n>2</n>` for `[1,2]`. -/
theorem c10_toplevel_sequence :
    (∀ (xs : List SVal) (n : Option Str), xs ≠ [] → toXml (.sList xs) n = none) ∧
    (∀ (xs : List SVal) (n : Option Str) (rs : List ETRes) (ts : List XTree),
      toEtreeR (.sList xs) n = some (.frags rs) → allSingles rs = some ts →
      compactToXml (.sList xs) n = some ((ts.map render1).flatten)) ∧
    compactToXml (.sList [.sInt 1, .sInt 2]) (some ("n".data))
      = some ("<n>1</n><n>2</n>".data) := by
  refine ⟨?_, ?_, by decide⟩
  · intro xs n _
    rw [toXml]
    rcases h1 : toEtreeR (.sList xs) n with _ | r
    · rfl
    · obtain ⟨rs, _, rfl⟩ := toEtreeR_list_eq h1
      rfl
  · intro xs n rs ts h1 h2
    rw [compactToXml]
    simp only [h1, h2]

/-- **C10** witness: the singleton list `[1]` under tag `"n"`. -/
theorem c10_toplevel_sequence_witness :
    toXml (.sList [.sInt 1]) (some ("n".data)) = none ∧
    compactToXml (.sList [.sInt 1]) (some ("n".data))
      = some (([XTree.mk ("n".data) [] (some (intToStr 1)) []].map render1).flatten) :=
  ⟨c10_toplevel_sequence.1 [.sInt 1] (some ("n".data)) (by simp),
   c10_toplevel_sequence.2.1 [.sInt 1] (some ("n".data))
     [.single (.mk ("n".data) [] (some (intToStr 1)) [])]
     [.mk ("n".data) [] (some (intToStr 1)) []] rfl rfl⟩

/-! ### Claim C9: dict-node finalization -/

/-- **C9** (confirmed): finalizing a dict-typed node returns a plain mapping
holding exactly the node's child fields — each stored directly or as a list
according to the single-child declaration — and holding neither the open-tag
attributes (they live on the synthesized per-element class, outside the
instance `__dict__`) nor the accumulated raw text (an underscore-internal
slot filtered out by `DictNode._finalize`).  The concrete parse drops both
the attribute `a="1"` and the text `" txt "` of the `<d>` element. -/
theorem c9_dict_finalize :
    (∀ (sc : List Str) (a : List (Str × Str)) (co : List Str)
       (f : List (Str × PField)) (t : Str),
      finalize ⟨⟨.dict, sc⟩, a, co, f, t⟩ = .ok (.vDict f)) ∧
    parseString [("d".data, dictType)] ⟨[], none⟩
      [.start ("r".data) [], .start ("d".data) [("a".data, "1".data)],
       .chars (" txt ".data), .start ("x".data) [], .chars ("t".data), .stop ("x".data),
       .stop ("d".data), .stop ("r".data)]
      = (⟨[], none⟩, .ok (some ⟨baseType, [], ["d".data],
          [("d".data, .many [.vDict [("x".data, .many [.vNode [] [] [] ("t".data)])]])],
          []⟩)) :=
  ⟨fun _ _ _ _ _ => rfl, rfl⟩

/-! ### Claim C7: sorted mapping serialization -/

instance {α : Type} : IsTotal (Str × α) pairLe :=
  ⟨fun p q => le_total p.1 q.1⟩

instance {α : Type} : IsTrans (Str × α) pairLe :=
  ⟨fun _ _ _ h1 h2 => le_trans h1 h2⟩

theorem sortByFst_perm {α : Type} (l : List (Str × α)) :
    (sortByFst l).Perm l :=
  List.perm_insertionSort _ _

theorem serFields_cons_inv {k : Str} {v : SVal} {es : List (Str × SVal)}
    {rs : List (Str × ETRes)} (h : serFields ((k, v) :: es) = some rs) :
    ∃ r rs2, toEtreeR v (some k) = some r ∧ serFields es = some rs2 ∧ rs = (k, r) :: rs2 := by
  rw [serFields] at h
  rcases h1 : toEtreeR v (some k) with _ | r
  · simp only [h1] at h
    cases h
  · simp only [h1] at h
    rcases h2 : serFields es with _ | rs2
    · simp only [h2] at h
      cases h
    · simp only [h2] at h
      cases h
      exact ⟨r, rs2, rfl, rfl, rfl⟩

/-- The serialized fields are entry-wise determined by the entries. -/
theorem serFields_eq_map : ∀ {es : List (Str × SVal)} {rs : List (Str × ETRes)},
    serFields es = some rs →
    rs = es.map (fun p => (p.1, (toEtreeR p.2 (some p.1)).getD (.frags []))) := by
  intro es
  induction es with
  | nil =>
      intro rs h
      rw [serFields] at h
      cases h
      rfl
  | cons p es ih =>
      intro rs h
      obtain ⟨r, rs2, h1, h2, rfl⟩ := serFields_cons_inv h
      rw [List.map_cons, ← ih h2, h1]
      rfl

theorem serFields_isSome_iff {es : List (Str × SVal)} :
    (serFields es).isSome ↔ ∀ p ∈ es, (toEtreeR p.2 (some p.1)).isSome := by
  induction es with
  | nil => simp [serFields]
  | cons p es ih =>
      constructor
      · intro h q hq
        obtain ⟨rs, hrs⟩ := Option.isSome_iff_exists.mp h
        obtain ⟨r, rs2, h1, h2, _⟩ := serFields_cons_inv hrs
        rcases List.mem_cons.mp hq with rfl | hq2
        · simp [h1]
        · exact ih.mp (by simp [h2]) q hq2
      · intro h
        have h1 : (toEtreeR p.2 (some p.1)).isSome := h p (List.mem_cons_self _ _)
        obtain ⟨r, hr⟩ := Option.isSome_iff_exists.mp h1
        have h2 : (serFields es).isSome := ih.mpr fun q hq => h q (List.mem_cons_of_mem _ hq)
        obtain ⟨rs2, hrs2⟩ := Option.isSome_iff_exists.mp h2
        have : serFields (p :: es) = some ((p.1, r) :: rs2) := by
          rw [show p = (p.1, p.2) from rfl] at hr ⊢
          rw [serFields]
          simp only [hr, hrs2]
        simp [this]

theorem allSingles_cons_single {t : XTree} {rs : List ETRes} {ts : List XTree}
    (h : allSingles (.single t :: rs) = some ts) :
    ∃ ts2, allSingles rs = some ts2 ∧ ts = t :: ts2 := by
  rw [allSingles] at h
  rcases h1 : allSingles rs with _ | ts2
  · rw [h1] at h; cases h
  · rw [h1] at h
    cases h
    exact ⟨ts2, rfl, rfl⟩

theorem alookup_mem {α : Type} {fs : List (Str × α)} {k : Str} {v : α}
    (h : alookup fs k = some v) : (k, v) ∈ fs := by
  induction fs with
  | nil => cases h
  | cons p r ih =>
      by_cases h1 : p.1 = k
      · rw [alookup_cons, if_pos h1] at h
        cases h
        subst h1
        exact List.mem_cons_self _ _
      · rw [alookup_cons, if_neg h1] at h
        exact List.mem_cons_of_mem _ (ih h)

theorem allManyF_setField {fs : List (Str × PField)} {k : Str} {vs : List PVal}
    (h : allManyF fs) : allManyF (setField fs k (.many vs)) := by
  induction fs with
  | nil =>
      intro p hp
      rcases List.mem_singleton.mp hp with rfl
      exact ⟨vs, rfl⟩
  | cons q r ih =>
      by_cases h1 : q.1 = k
      · simp only [setField, h1, if_true]
        intro p hp
        rcases List.mem_cons.mp hp with rfl | hp2
        · exact ⟨vs, rfl⟩
        · exact h p (List.mem_cons_of_mem _ hp2)
      · simp only [setField, h1, if_false]
        intro p hp
        rcases List.mem_cons.mp hp with rfl | hp2
        · exact h p (List.mem_cons_self _ _)
        · exact ih (fun q2 hq2 => h q2 (List.mem_cons_of_mem _ hq2)) p hp2

theorem allManyF_addOne {fs : List (Str × PField)} {k : Str} {v : PVal}
    (h : allManyF fs) : allManyF (addOne fs k v) := by
  unfold addOne lookupF
  cases hl : alookup fs k with
  | none =>
      intro p hp
      rcases List.mem_append.mp hp with hp1 | hp2
      · exact h p hp1
      · rcases List.mem_singleton.mp hp2 with rfl
        exact ⟨[v], rfl⟩
  | some f =>
      cases f with
      | one v0 => exact h
      | many vs => exact allManyF_setField h

theorem lookupF_of_allManyF {fs : List (Str × PField)} (k : Str) (h : allManyF fs) :
    lookupF fs k = none ∨ ∃ vs, lookupF fs k = some (.many vs) := by
  cases hl : lookupF fs k with
  | none => exact Or.inl rfl
  | some f =>
      obtain ⟨vs, hvs⟩ := h (k, f) (alookup_mem hl)
      cases hvs
      exact Or.inr ⟨vs, rfl⟩

/-- A default-typed node always finalizes (to itself). -/
theorem finalize_base {L : LiveNode} (h : L.ty = baseType) :
    finalize L = .ok (.vNode L.attrs L.childOrder L.fields L.text) := by
  rw [finalize, h]
  rfl

/-- Under the empty registry, running the machine can only fail with the
tokenizer's `MalformedDocumentError`, and it succeeds with a closed single
root exactly on well-formed event streams. -/
theorem saxRun_wf_base :
    ∀ (evs : List XEvent) (ts : List Str) (closed : Bool)
      (hs : List LiveNode) (root : Option LiveNode),
      hs.length = ts.length → baseStack hs →
      ((saxRunM [] ⟨ts, closed, hs, root⟩ evs).2 = none ∨
        (saxRunM [] ⟨ts, closed, hs, root⟩ evs).2 = some .malformedDocument) ∧
      wfAux ts closed evs =
        ((saxRunM [] ⟨ts, closed, hs, root⟩ evs).2.isNone &&
          ((saxRunM [] ⟨ts, closed, hs, root⟩ evs).1.tstack.isEmpty &&
           (saxRunM [] ⟨ts, closed, hs, root⟩ evs).1.rootClosed)) := by
  intro evs
  induction evs with
  | nil =>
      intro ts closed hs root hlen hbs
      exact ⟨Or.inl rfl, by simp [saxRunM, wfAux]⟩
  | cons e rest ih =>
      intro ts closed hs root hlen hbs
      cases e with
      | start n attrs =>
          by_cases hc : (ts.isEmpty && closed) = true
          · have hstep : saxRunM [] ⟨ts, closed, hs, root⟩ (.start n attrs :: rest)
                = (⟨ts, closed, hs, root⟩, some .malformedDocument) := by
              rw [saxRunM, saxStep]
              simp only [hc, if_true]
            rw [hstep]
            refine ⟨Or.inr rfl, ?_⟩
            rw [wfAux]
            simp [hc]
          · have hstep : saxRunM [] ⟨ts, closed, hs, root⟩ (.start n attrs :: rest)
                = saxRunM [] ⟨n :: ts, closed, newLive [] n attrs :: hs, root⟩ rest := by
              rw [saxRunM, saxStep]
              simp only [hc, Bool.false_eq_true, if_false]
            have hbs2 : baseStack (newLive [] n attrs :: hs) := by
              intro L hL
              rcases List.mem_cons.mp hL with rfl | hL2
              · exact ⟨rfl, fun p hp => absurd hp (List.not_mem_nil p)⟩
              · exact hbs L hL2
            have hres := ih (n :: ts) closed (newLive [] n attrs :: hs) root
              (by simp [hlen]) hbs2
            rw [hstep]
            refine ⟨hres.1, ?_⟩
            rw [wfAux]
            simp only [hc, Bool.false_eq_true, if_false]
            exact hres.2
      | chars s =>
          cases ts with
          | nil =>
              by_cases hw : allSpace s = true
              · have hstep : saxRunM [] ⟨[], closed, hs, root⟩ (.chars s :: rest)
                    = saxRunM [] ⟨[], closed, hs, root⟩ rest := by
                  rw [saxRunM, saxStep]
                  simp only [hw, if_true]
                have hres := ih [] closed hs root hlen hbs
                rw [hstep, wfAux]
                exact ⟨hres.1, by simp only [hw, Bool.true_and]; exact hres.2⟩
              · have hstep : saxRunM [] ⟨[], closed, hs, root⟩ (.chars s :: rest)
                    = (⟨[], closed, hs, root⟩, some .malformedDocument) := by
                  rw [saxRunM, saxStep]
                  simp only [hw, Bool.false_eq_true, if_false]
                rw [hstep, wfAux]
                exact ⟨Or.inr rfl, by simp [hw]⟩
          | cons m ts' =>
              cases hs with
              | nil => simp at hlen
              | cons top hs2 =>
                  have hstep : saxRunM [] ⟨m :: ts', closed, top :: hs2, root⟩
                        (.chars s :: rest)
                      = saxRunM [] ⟨m :: ts', closed,
                          { top with text := top.text ++ s } :: hs2, root⟩ rest := by
                    rw [saxRunM, saxStep]
                  have hbs2 : baseStack ({ top with text := top.text ++ s } :: hs2) := by
                    intro L hL
                    rcases List.mem_cons.mp hL with rfl | hL2
                    · exact ⟨(hbs top (List.mem_cons_self _ _)).1,
                        (hbs top (List.mem_cons_self _ _)).2⟩
                    · exact hbs L (List.mem_cons_of_mem _ hL2)
                  have hres := ih (m :: ts') closed _ root (by simpa using hlen) hbs2
                  rw [hstep, wfAux]
                  exact hres
      | stop n =>
          cases ts with
          | nil =>
              have hstep : saxRunM [] ⟨[], closed, hs, root⟩ (.stop n :: rest)
                  = (⟨[], closed, hs, root⟩, some .malformedDocument) := by
                rw [saxRunM, saxStep]
              rw [hstep, wfAux]
              exact ⟨Or.inr rfl, by simp⟩
          | cons m ts' =>
              by_cases hmn : m = n
              · subst hmn
                cases hs with
                | nil => simp at hlen
                | cons elemN hs2 =>
                    cases hs2 with
                    | nil =>
                        have hts : ts' = [] := by
                          simp at hlen
                          exact hlen
                        subst hts
                        have hstep : saxRunM [] ⟨[m], closed, [elemN], root⟩
                              (.stop m :: rest)
                            = saxRunM [] ⟨[], closed || true, [], some elemN⟩ rest := by
                          rw [saxRunM, saxStep]
                          simp
                        have hres := ih [] (closed || true) [] (some elemN) rfl
                          (fun L hL => absurd hL (List.not_mem_nil L))
                        rw [hstep, wfAux]
                        simp only [beq_self_eq_true, Bool.true_and, List.isEmpty_nil]
                        exact hres
                    | cons parent hs3 =>
                        have hpb := hbs parent (List.mem_cons_of_mem _ (List.mem_cons_self _ _))
                        have heb := hbs elemN (List.mem_cons_self _ _)
                        have hfin := finalize_base heb.1
                        have hadd : addChild parent m elemN = .ok { parent with
                            childOrder := parent.childOrder ++ [m]
                            fields := addOne parent.fields m
                              (.vNode elemN.attrs elemN.childOrder elemN.fields elemN.text) } :=
                          addChild_base (by rw [hpb.1]; simp [baseType])
                            (lookupF_of_allManyF m hpb.2) hfin
                        have hstep : saxRunM [] ⟨m :: ts', closed,
                              elemN :: parent :: hs3, root⟩ (.stop m :: rest)
                            = saxRunM [] ⟨ts', closed || ts'.isEmpty,
                                { parent with
                                  childOrder := parent.childOrder ++ [m]
                                  fields := addOne parent.fields m
                                    (.vNode elemN.attrs elemN.childOrder elemN.fields
                                      elemN.text) } :: hs3, root⟩ rest := by
                          rw [saxRunM, saxStep]
                          simp [hadd]
                        have hbs2 : baseStack ({ parent with
                            childOrder := parent.childOrder ++ [m]
                            fields := addOne parent.fields m
                              (.vNode elemN.attrs elemN.childOrder elemN.fields
                                elemN.text) } :: hs3) := by
                          intro L hL
                          rcases List.mem_cons.mp hL with rfl | hL2
                          · exact ⟨hpb.1, allManyF_addOne hpb.2⟩
                          · exact hbs L (List.mem_cons_of_mem _
                              (List.mem_cons_of_mem _ hL2))
                        have hres := ih ts' (closed || ts'.isEmpty) _ root
                          (by simpa using hlen) hbs2
                        rw [hstep, wfAux]
                        simp only [beq_self_eq_true, Bool.true_and]
                        exact hres
              · have hstep : saxRunM [] ⟨m :: ts', closed, hs, root⟩ (.stop n :: rest)
                    = (⟨m :: ts', closed, hs, root⟩, some .malformedDocument) := by
                  rw [saxRunM, saxStep]
                  simp [hmn]
                rw [hstep, wfAux]
                refine ⟨Or.inr rfl, ?_⟩
                simp [hmn]

/-- **C2** (confirmed): for every event stream whose element nesting violates
the contract — a close with an empty open-element stack, a stream ending
with unclosed elements, or an empty document — `parseString` on a fresh
default binder fails with the spec's `MalformedDocumentError` and yields no
root value.  The three concrete conjuncts are the claim's shapes:
`<a><b></a>`, the empty document, and the unterminated `<a>`. -/
theorem c2_malformed :
    (∀ doc : List XEvent, wfEvents doc = false →
      (parseString [] ⟨[], none⟩ doc).2 = .error .malformedDocument) ∧
    (parseString [] ⟨[], none⟩
      [.start ("a".data) [], .start ("b".data) [], .stop ("a".data)]).2
      = .error .malformedDocument ∧
    (parseString [] ⟨[], none⟩ ([] : List XEvent)).2 = .error .malformedDocument ∧
    (parseString [] ⟨[], none⟩ [.start ("a".data) []]).2 = .error .malformedDocument := by
  refine ⟨?_, rfl, rfl, rfl⟩
  intro doc hwf
  have hrun := saxRun_wf_base doc [] false [] none rfl
    (fun L hL => absurd hL (List.not_mem_nil L))
  rw [wfEvents] at hwf
  rcases hcase : (saxRunM [] ⟨[], false, [], none⟩ doc).2 with _ | e
  · have hbool := hrun.2
    rw [hcase, hwf] at hbool
    have hx : ((saxRunM [] ⟨[], false, [], none⟩ doc).1.tstack.isEmpty &&
        (saxRunM [] ⟨[], false, [], none⟩ doc).1.rootClosed) = false := by
      simpa using hbool.symm
    rw [parseString]
    simp only [hcase, hx, Bool.false_eq_true, if_false]
  · rcases hrun.1 with hnone | hmal
    · rw [hcase] at hnone; cases hnone
    · rw [hcase] at hmal
      cases hmal
      rw [parseString]
      simp only [hcase]

/-- **C2** witness: an element-close arriving on an empty stack. -/
theorem c2_malformed_witness :
    (parseString [] ⟨[], none⟩ [.stop ("a".data)]).2 = .error .malformedDocument :=
  c2_malformed.1 [.stop ("a".data)] (by decide)

/-! ### Claim C8: handler state across `parseString` calls -/

/-- Every non-raising machine step preserves the difference between the
handler stack's depth and the parser stack's depth. -/
theorem saxStep_inl_len {reg : List (Str × NodeType)} {st st2 : MState} {e : XEvent}
    (h : saxStep reg st e = .inl st2) :
    st2.hstack.length + st.tstack.length = st.hstack.length + st2.tstack.length := by
  cases e with
  | start n attrs =>
      rw [saxStep] at h
      split at h
      · cases h
      · cases h
        simp only [List.length_cons]
        omega
  | chars s =>
      rw [saxStep] at h
      split at h
      · split at h
        · cases h
          rfl
        · cases h
      · split at h
        · cases h
        · cases h
          simp_all [List.length_cons]
  | stop n =>
      rw [saxStep] at h
      split at h
      · cases h
      · split at h
        · cases h
        · split at h
          · cases h
          · split at h
            · cases h
              simp_all [List.length_cons]
              omega
            · split at h
              · cases h
                simp_all [List.length_cons]
                omega
              · cases h

/-- A run that raises no exception preserves the depth difference. -/
theorem saxRunM_ok_len :
    ∀ {evs : List XEvent} {reg : List (Str × NodeType)} {st : MState},
    (saxRunM reg st evs).2 = none →
    (saxRunM reg st evs).1.hstack.length + st.tstack.length
      = st.hstack.length + (saxRunM reg st evs).1.tstack.length := by
  intro evs
  induction evs with
  | nil => intro reg st _; rfl
  | cons e rest ih =>
      intro reg st h
      rcases hstep : saxStep reg st e with st2 | ⟨st2, err⟩
      · have hrw : saxRunM reg st (e :: rest) = saxRunM reg st2 rest := by
          rw [saxRunM, hstep]
        rw [hrw] at h ⊢
        have h1 := saxStep_inl_len hstep
        have h2 := ih h
        omega
      · have hrw : saxRunM reg st (e :: rest) = (st2, some err) := by
          rw [saxRunM, hstep]
        rw [hrw] at h
        cases h

/-- **C8** (amended): `parseString` resets only the stored root result before
parsing — the binder's behaviour is independent of any leftover `rootNode`
— and a parse that completes without error leaves the handler stack empty
(so sequences of error-free parses each start from empty state).  The node
stack itself is NOT reset; the counterexample shows a parse that follows a
failed parse starting with the leftover stack and returning `None`. -/
theorem c8_state_reset :
    (∀ (reg : List (Str × NodeType)) (h₁ h₂ : HState) (doc : List XEvent),
      h₁.stack = h₂.stack → parseString reg h₁ doc = parseString reg h₂ doc) ∧
    (∀ (reg : List (Str × NodeType)) (root : Option LiveNode) (doc : List XEvent)
       (h' : HState) (v : Option LiveNode),
      parseString reg ⟨[], root⟩ doc = (h', .ok v) →
      h'.stack = [] ∧ h'.root = none) := by
  constructor
  · intro reg h₁ h₂ doc hst
    rw [parseString, parseString, hst]
  · intro reg root doc h' v hp
    simp only [parseString] at hp
    rcases hcase : (saxRunM reg ⟨[], false, [], none⟩ doc).2 with _ | e
    · simp only [hcase] at hp
      by_cases hcond : ((saxRunM reg ⟨[], false, [], none⟩ doc).1.tstack.isEmpty &&
          (saxRunM reg ⟨[], false, [], none⟩ doc).1.rootClosed) = true
      · rw [if_pos hcond] at hp
        have hinj := Prod.mk.injEq .. ▸ hp
        have hfst : h' = (⟨(saxRunM reg ⟨[], false, [], none⟩ doc).1.hstack, none⟩ : HState) := by
          cases hp
          rfl
        have hts : (saxRunM reg ⟨[], false, [], none⟩ doc).1.tstack = [] := by
          have := (Bool.and_eq_true ..).mp hcond
          exact List.isEmpty_iff.mp this.1
        have hlen := saxRunM_ok_len hcase
        rw [hts] at hlen
        simp only [List.length_nil] at hlen
        have hhs : (saxRunM reg ⟨[], false, [], none⟩ doc).1.hstack = [] :=
          List.length_eq_zero.mp (by omega)
        rw [hfst]
        exact ⟨hhs, rfl⟩
      · rw [if_neg hcond] at hp
        cases hp
    · simp only [hcase] at hp
      cases hp

/-- **C8** witness: the reset of the stored root makes two binder states
with equal stacks behave identically. -/
theorem c8_state_reset_witness :
    parseString [] ⟨[], some ⟨baseType, [], [], [], "junk".data⟩⟩
        [.start ("a".data) [], .stop ("a".data)]
      = parseString [] ⟨[], none⟩ [.start ("a".data) [], .stop ("a".data)] :=
  c8_state_reset.1 [] _ _ _ rfl

/-- **C8** counterexample to the claim as stated: the node stack is not
reset.  Parsing `<r><n>x</n></r>` with `n` bound to the integer node raises
(`int('x')`), leaving one node on the stack; the next parse of the
well-formed `<a>hi</a>` on the same binder then returns `None` instead of
the `a` node that a fresh binder produces. -/
theorem c8_dirty_stack_counterexample :
    (parseString [("n".data, integerType)] ⟨[], none⟩
        [.start ("r".data) [], .start ("n".data) [], .chars ("x".data),
         .stop ("n".data), .stop ("r".data)]).2 = .error .valueError ∧
    (parseString [("n".data, integerType)] ⟨[], none⟩
        [.start ("r".data) [], .start ("n".data) [], .chars ("x".data),
         .stop ("n".data), .stop ("r".data)]).1.stack.length = 1 ∧
    (parseString [("n".data, integerType)]
        (parseString [("n".data, integerType)] ⟨[], none⟩
          [.start ("r".data) [], .start ("n".data) [], .chars ("x".data),
           .stop ("n".data), .stop ("r".data)]).1
        [.start ("a".data) [], .chars ("hi".data), .stop ("a".data)]).2 = .ok none ∧
    (parseString [("n".data, integerType)] ⟨[], none⟩
        [.start ("a".data) [], .chars ("hi".data), .stop ("a".data)]).2
      = .ok (some ⟨baseType, [], [], [], "hi".data⟩) :=
  ⟨rfl, rfl, rfl, rfl⟩

/-! ### C1: whitespace decoration — inversion and composition -/

theorem decor_refl : ∀ os : List XEvent, Decor os os
  | [] => .nil
  | e :: os => .keep e (decor_refl os)

theorem decor_nil_inv {evs : List XEvent} (h : Decor [] evs) : WsEvents evs := by
  generalize hos : ([] : List XEvent) = os at h
  induction h with
  | nil => intro e he; cases he
  | keep e h ih => cases hos
  | ws s hs h ih =>
      intro e he
      rcases List.mem_cons.mp he with rfl | he2
      · exact ⟨s, rfl, hs⟩
      · exact ih hos e he2

theorem decor_cons_inv {e : XEvent} {os evs : List XEvent} (h : Decor (e :: os) evs) :
    ∃ pre rest, evs = pre ++ e :: rest ∧ WsEvents pre ∧ Decor os rest := by
  generalize hos : e :: os = os' at h
  induction h with
  | nil => cases hos
  | keep e' h ih =>
      cases hos
      exact ⟨[], _, rfl, fun x hx => absurd hx (List.not_mem_nil x), h⟩
  | ws s hs h ih =>
      obtain ⟨pre, rest, rfl, hpre, hrest⟩ := ih hos
      refine ⟨XEvent.chars s :: pre, rest, rfl, ?_, hrest⟩
      intro x hx
      rcases List.mem_cons.mp hx with rfl | hx2
      · exact ⟨s, rfl, hs⟩
      · exact hpre x hx2

theorem decor_ws_prepend {pre : List XEvent} (hpre : WsEvents pre)
    {os ds : List XEvent} (h : Decor os ds) : Decor os (pre ++ ds) := by
  induction pre with
  | nil => exact h
  | cons e rest ih =>
      obtain ⟨s, rfl, hs⟩ := hpre e (List.mem_cons_self _ _)
      exact .ws s hs (ih fun x hx => hpre x (List.mem_cons_of_mem _ hx))

theorem decor_append_inv :
    ∀ {os₁ os₂ evs : List XEvent}, Decor (os₁ ++ os₂) evs →
    ∃ evs₁ evs₂, evs = evs₁ ++ evs₂ ∧ Decor os₁ evs₁ ∧ Decor os₂ evs₂ := by
  intro os₁
  induction os₁ with
  | nil => intro os₂ evs h; exact ⟨[], evs, rfl, .nil, h⟩
  | cons e os₁' ih =>
      intro os₂ evs h
      rw [List.cons_append] at h
      obtain ⟨pre, rest, rfl, hpre, hrest⟩ := decor_cons_inv h
      obtain ⟨r₁, r₂, rfl, hd₁, hd₂⟩ := ih hrest
      exact ⟨pre ++ e :: r₁, r₂, by simp, decor_ws_prepend hpre (.keep e hd₁), hd₂⟩

/-! ### C1: machine runs over composed and whitespace-only streams -/

theorem saxRunM_append {reg : List (Str × NodeType)} :
    ∀ {a : List XEvent} {st : MState} (b : List XEvent), (saxRunM reg st a).2 = none →
    saxRunM reg st (a ++ b) = saxRunM reg (saxRunM reg st a).1 b := by
  intro a
  induction a with
  | nil => intro st b h; rfl
  | cons e rest ih =>
      intro st b h
      rw [List.cons_append]
      rw [saxRunM] at h ⊢
      rw [saxRunM]
      cases hstep : saxStep reg st e with
      | inl st2 =>
          rw [hstep] at h
          simp only
          exact ih b h
      | inr p =>
          rw [hstep] at h
          cases h

theorem saxRunM_append_run {reg : List (Str × NodeType)} {a b : List XEvent}
    {st st₁ : MState} {res : MState × Option PErr}
    (h₁ : saxRunM reg st a = (st₁, none)) (h₂ : saxRunM reg st₁ b = res) :
    saxRunM reg st (a ++ b) = res := by
  rw [saxRunM_append b (by rw [h₁]), h₁]
  exact h₂

theorem concatChars_nil : concatChars [] = [] := rfl

theorem concatChars_cons (e : XEvent) (evs : List XEvent) :
    concatChars (e :: evs)
      = (match e with | XEvent.chars s => s | _ => []) ++ concatChars evs := by
  simp [concatChars]

theorem concatChars_append (a b : List XEvent) :
    concatChars (a ++ b) = concatChars a ++ concatChars b := by
  simp [concatChars]

theorem concatChars_allSpace : ∀ {evs : List XEvent}, WsEvents evs →
    ∀ c ∈ concatChars evs, pySpace c := by
  intro evs
  induction evs with
  | nil => intro _ c hc; cases hc
  | cons e rest ih =>
      intro h c hc
      obtain ⟨s, rfl, hs⟩ := h e (List.mem_cons_self _ _)
      rw [concatChars_cons] at hc
      rcases List.mem_append.mp hc with hc1 | hc2
      · exact allSpace_iff.mp hs c hc1
      · exact ih (fun x hx => h x (List.mem_cons_of_mem _ hx)) c hc2

/-- Inside an open element, a whitespace run only appends to the top node's
accumulated text. -/
theorem wsCharsRun : ∀ {evs : List XEvent}, WsEvents evs →
    ∀ {ts : List Str} {closed : Bool} {D : LiveNode} {hs : List LiveNode}
      {root : Option LiveNode}, ts ≠ [] →
    saxRunM [] ⟨ts, closed, D :: hs, root⟩ evs
      = (⟨ts, closed, { D with text := D.text ++ concatChars evs } :: hs, root⟩, none) := by
  intro evs
  induction evs with
  | nil =>
      intro _ ts closed D hs root hts
      rw [saxRunM, concatChars_nil, List.append_nil]
  | cons e rest ih =>
      intro h ts closed D hs root hts
      obtain ⟨s, rfl, hs'⟩ := h e (List.mem_cons_self _ _)
      cases ts with
      | nil => exact absurd rfl hts
      | cons t0 ts0 =>
          have hstep : saxStep [] ⟨t0 :: ts0, closed, D :: hs, root⟩ (XEvent.chars s)
              = .inl ⟨t0 :: ts0, closed, { D with text := D.text ++ s } :: hs, root⟩ := rfl
          have hrw : saxRunM [] ⟨t0 :: ts0, closed, D :: hs, root⟩ (XEvent.chars s :: rest)
              = saxRunM [] ⟨t0 :: ts0, closed, { D with text := D.text ++ s } :: hs, root⟩
                  rest := by
            rw [saxRunM, hstep]
          rw [hrw,
            ih (fun x hx => h x (List.mem_cons_of_mem _ hx)) (List.cons_ne_nil t0 ts0),
            concatChars_cons]
          simp [List.append_assoc]

/-- Outside the root (empty tag stack), a whitespace run is ignored. -/
theorem wsOutsideRun : ∀ {evs : List XEvent}, WsEvents evs →
    ∀ {closed : Bool} {hs : List LiveNode} {root : Option LiveNode},
    saxRunM [] ⟨[], closed, hs, root⟩ evs = (⟨[], closed, hs, root⟩, none) := by
  intro evs
  induction evs with
  | nil => intro _ closed hs root; rfl
  | cons e rest ih =>
      intro h closed hs root
      obtain ⟨s, rfl, hs'⟩ := h e (List.mem_cons_self _ _)
      have hstep : saxStep [] ⟨[], closed, hs, root⟩ (XEvent.chars s)
          = .inl ⟨[], closed, hs, root⟩ := by
        simp [saxStep, hs']
      have hrw : saxRunM [] ⟨[], closed, hs, root⟩ (XEvent.chars s :: rest)
          = saxRunM [] ⟨[], closed, hs, root⟩ rest := by
        rw [saxRunM, hstep]
      rw [hrw]
      exact ih (fun x hx => h x (List.mem_cons_of_mem _ hx))

/-! ### C1: event streams of serialized fragments -/

theorem eventsOfL_append (a b : List XTree) :
    eventsOfL (a ++ b) = eventsOfL a ++ eventsOfL b := by
  induction a with
  | nil => rfl
  | cons t ts ih => rw [List.cons_append, eventsOfL, eventsOfL, ih, List.append_assoc]

theorem allSingles_eq_map : ∀ {rs : List ETRes} {ts : List XTree},
    allSingles rs = some ts → rs = ts.map ETRes.single := by
  intro rs
  induction rs with
  | nil =>
      intro ts h
      rw [allSingles] at h
      cases h
      rfl
  | cons r rest ih =>
      intro ts h
      cases r with
      | frags rs2 => rw [allSingles] at h; cases h
      | single t =>
          obtain ⟨ts2, h1, rfl⟩ := allSingles_cons_single h
          rw [List.map_cons, ← ih h1]

theorem eventsOfRL_map_single (ts : List XTree) :
    eventsOfRL (ts.map ETRes.single) = eventsOfL ts := by
  induction ts with
  | nil => rfl
  | cons t rest ih => rw [List.map_cons, eventsOfRL, eventsOfR, eventsOfL, ih]

theorem etreeAdd_events {cs : List XTree} {r : ETRes} {cs' : List XTree}
    (h : etreeAdd cs r = some cs') :
    eventsOfL cs' = eventsOfL cs ++ eventsOfR r := by
  cases r with
  | single t =>
      rw [etreeAdd] at h
      cases h
      rw [eventsOfL_append, eventsOfR, eventsOfL, eventsOfL, List.append_nil]
  | frags rs =>
      rw [etreeAdd] at h
      rcases h1 : allSingles rs with _ | ts
      · rw [h1] at h; cases h
      · rw [h1] at h
        cases h
        rw [eventsOfL_append, eventsOfR, allSingles_eq_map h1, eventsOfRL_map_single]

theorem addAll_events : ∀ {ps : List (Str × ETRes)} {cs cs' : List XTree},
    addAll cs ps = some cs' →
    eventsOfL cs' = eventsOfL cs ++ eventsOfRL (ps.map Prod.snd) := by
  intro ps
  induction ps with
  | nil =>
      intro cs cs' h
      rw [addAll] at h
      cases h
      rw [List.map_nil, eventsOfRL, List.append_nil]
  | cons p rest ih =>
      intro cs cs' h
      obtain ⟨k, r⟩ := p
      rw [addAll] at h
      rcases h1 : etreeAdd cs r with _ | cs2
      · rw [h1] at h; cases h
      · rw [h1] at h
        rw [ih h, etreeAdd_events h1, List.map_cons, eventsOfRL, List.append_assoc]

/-! ### C1: sorting commutes with key-preserving entry maps -/

theorem canonPairs_eq_map (es : List (Str × SVal)) :
    canonPairs es = es.map (fun p => (p.1, fanVals p.2)) := by
  induction es with
  | nil => rfl
  | cons p r ih =>
      obtain ⟨k, v⟩ := p
      cases v <;> simp [canonPairs, fanVals, ih]

theorem orderedInsert_map {α β : Type} (F : Str × α → Str × β)
    (hF : ∀ p, (F p).1 = p.1) (a : Str × α) :
    ∀ l : List (Str × α),
    List.orderedInsert pairLe (F a) (l.map F) = (List.orderedInsert pairLe a l).map F := by
  intro l
  induction l with
  | nil => rfl
  | cons b r ih =>
      rw [List.map_cons, List.orderedInsert, List.orderedInsert]
      by_cases h : pairLe a b
      · have h2 : pairLe (F a) (F b) := by
          unfold pairLe
          rw [hF, hF]
          exact h
        rw [if_pos h2, if_pos h, List.map_cons, List.map_cons]
      · have h2 : ¬ pairLe (F a) (F b) := by
          unfold pairLe at h ⊢
          rw [hF, hF]
          exact h
        rw [if_neg h2, if_neg h, List.map_cons, ih]

theorem sortByFst_map {α β : Type} (F : Str × α → Str × β)
    (hF : ∀ p, (F p).1 = p.1) :
    ∀ l : List (Str × α), sortByFst (l.map F) = (sortByFst l).map F := by
  intro l
  unfold sortByFst
  induction l with
  | nil => rfl
  | cons a r ih =>
      rw [List.map_cons, List.insertionSort, List.insertionSort, ih,
        orderedInsert_map F hF]

theorem sortByFst_canonPairs (es : List (Str × SVal)) :
    sortByFst (canonPairs es) = canonPairs (sortByFst es) := by
  rw [canonPairs_eq_map, canonPairs_eq_map]
  exact sortByFst_map (fun p => (p.1, fanVals p.2)) (fun p => rfl) es

theorem serFields_success {es : List (Str × SVal)} {rs : List (Str × ETRes)}
    (h : serFields es = some rs) :
    ∀ p ∈ es, (toEtreeR p.2 (some p.1)).isSome := by
  exact serFields_isSome_iff.mp (by simp [h])

theorem serFields_of_success : ∀ {es : List (Str × SVal)},
    (∀ p ∈ es, (toEtreeR p.2 (some p.1)).isSome) →
    serFields es
      = some (es.map fun p => (p.1, (toEtreeR p.2 (some p.1)).getD (.frags []))) := by
  intro es
  induction es with
  | nil => intro _; rfl
  | cons p r ih =>
      intro h
      obtain ⟨rp, hrp⟩ :=
        Option.isSome_iff_exists.mp (h p (List.mem_cons_self _ _))
      have h2 := ih fun q hq => h q (List.mem_cons_of_mem _ hq)
      rw [show p = (p.1, p.2) from rfl] at hrp ⊢
      rw [serFields]
      simp only [hrp, h2, List.map_cons, Option.getD_some]

theorem serFields_sortByFst {es : List (Str × SVal)} {rs : List (Str × ETRes)}
    (h : serFields es = some rs) :
    serFields (sortByFst es) = some (sortByFst rs) := by
  have hsucc : ∀ p ∈ sortByFst es, (toEtreeR p.2 (some p.1)).isSome := by
    intro p hp
    exact serFields_success h p ((sortByFst_perm es).mem_iff.mp hp)
  rw [serFields_of_success hsucc, serFields_eq_map h,
    sortByFst_map (fun p => (p.1, (toEtreeR p.2 (some p.1)).getD (.frags [])))
      (fun p => rfl) es]

/-! ### C1: field-accumulation algebra -/

theorem addVals_append (fs : List (Str × PField)) (k : Str) :
    ∀ (a b : List PVal), addVals fs k (a ++ b) = addVals (addVals fs k a) k b := by
  intro a
  induction a generalizing fs with
  | nil => intro b; rfl
  | cons v vs ih => intro b; rw [List.cons_append, addVals, addVals, ih]

theorem allManyF_addVals {k : Str} :
    ∀ {vs : List PVal} {fs : List (Str × PField)}, allManyF fs →
    allManyF (addVals fs k vs) := by
  intro vs
  induction vs with
  | nil => intro fs h; exact h
  | cons v vs ih => intro fs h; exact ih (allManyF_addOne h)

theorem addVals_acc {fs : List (Str × PField)} {k : Str} (h : alookup fs k = none) :
    ∀ (vs acc : List PVal),
    addVals (fs ++ [(k, .many acc)]) k vs = fs ++ [(k, .many (acc ++ vs))] := by
  intro vs
  induction vs with
  | nil => intro acc; rw [addVals, List.append_nil]
  | cons v vs ih =>
      intro acc
      have hlk : lookupF (fs ++ [(k, PField.many acc)]) k = some (.many acc) := by
        unfold lookupF
        rw [alookup_append_fresh h]
        simp [alookup]
      have h1 : addOne (fs ++ [(k, PField.many acc)]) k v
          = setField (fs ++ [(k, PField.many acc)]) k (.many (acc ++ [v])) := by
        unfold addOne
        rw [hlk]
      rw [addVals, h1, setField_append_fresh h, ih (acc ++ [v]), List.append_assoc,
        List.singleton_append]

theorem addVals_fresh {fs : List (Str × PField)} {k : Str} {v : PVal} {vs : List PVal}
    (h : alookup fs k = none) :
    addVals fs k (v :: vs) = fs ++ [(k, .many (v :: vs))] := by
  have h1 : addOne fs k v = fs ++ [(k, PField.many [v])] := by
    unfold addOne lookupF
    rw [h]
  rw [addVals, h1, addVals_acc h vs [v], List.singleton_append]

/-! ### C1: normalization distributes over accumulation -/

theorem normFields_append (a b : List (Str × PField)) :
    normFields (a ++ b) = normFields a ++ normFields b := by
  induction a with
  | nil => rfl
  | cons p r ih =>
      obtain ⟨k, f⟩ := p
      rw [List.cons_append, normFields, normFields, ih, List.cons_append]

theorem normList_append (a b : List PVal) :
    normList (a ++ b) = normList a ++ normList b := by
  induction a with
  | nil => rfl
  | cons v r ih => rw [List.cons_append, normList, normList, ih, List.cons_append]

theorem normList_length : ∀ vs : List PVal, (normList vs).length = vs.length := by
  intro vs
  induction vs with
  | nil => rfl
  | cons v r ih => rw [normList, List.length_cons, List.length_cons, ih]

/-! ### C1: scope-predicate transports -/

theorem goodEntries_mem : ∀ {es : List (Str × SVal)}, goodEntries es = true →
    ∀ p ∈ es, goodVal p.2 = true := by
  intro es
  induction es with
  | nil => intro _ p hp; cases hp
  | cons q r ih =>
      intro h p hp
      obtain ⟨k, v⟩ := q
      simp only [goodEntries, Bool.and_eq_true] at h
      rcases List.mem_cons.mp hp with rfl | hp2
      · exact h.1.2
      · exact ih h.2 p hp2

theorem goodEntries_nodup : ∀ {es : List (Str × SVal)}, goodEntries es = true →
    (es.map Prod.fst).Nodup := by
  intro es
  induction es with
  | nil => intro _; exact List.nodup_nil
  | cons q r ih =>
      intro h
      obtain ⟨k, v⟩ := q
      simp only [goodEntries, Bool.and_eq_true] at h
      rw [List.map_cons, List.nodup_cons]
      refine ⟨?_, ih h.2⟩
      intro hmem
      obtain ⟨p, hp, hpk⟩ := List.mem_map.mp hmem
      have : r.any (·.1 == k) = true := by
        refine List.any_eq_true.mpr ⟨p, hp, ?_⟩
        rw [hpk]
        exact beq_self_eq_true k
      rw [this] at h
      exact Bool.noConfusion h.1.1.2

theorem goodelems_mem : ∀ {xs : List SVal}, goodElems xs = true →
    ∀ x ∈ xs, goodVal x = true ∧ ∀ ys, x ≠ .sList ys := by
  intro xs
  induction xs with
  | nil => intro _ x hx; cases hx
  | cons y r ih =>
      intro h x hx
      rw [goodElems, Bool.and_eq_true] at h
      rcases List.mem_cons.mp hx with rfl | hx2
      · constructor
        · cases x with
          | sBool b => rfl
          | sInt n => rfl
          | sStr s => rfl
          | sList ys => exact absurd h.1 (by rw [goodElem]; exact Bool.noConfusion)
          | sDict es => exact h.1
          | sObj c a f co t => exact absurd h.1 (by rw [goodElem]; exact Bool.noConfusion)
        · intro ys hcon
          rw [hcon, goodElem] at h
          exact Bool.noConfusion h.1
      · exact ih h.2 x hx2

theorem fanVals_of_not_list {v : SVal} (h : ∀ ys, v ≠ .sList ys) :
    fanVals v = [canonVal v] := by
  cases v with
  | sList ys => exact absurd rfl (h ys)
  | sBool b => rfl
  | sInt n => rfl
  | sStr s => rfl
  | sDict es => rfl
  | sObj c a f co t => rfl

theorem canonVal_eq {v : SVal} (h : ∀ ys, v ≠ .sList ys) (ho : goodVal v = true) :
    canonVal v = .vNode [] (canonOrderOf v) (canonFieldsOf v) (canonText v) := by
  cases v with
  | sList ys => exact absurd rfl (h ys)
  | sBool b => rfl
  | sInt n => rfl
  | sStr s => rfl
  | sDict es => rfl
  | sObj c a f co t => exact Bool.noConfusion ho

theorem canonRoot_eq {v : SVal} (h : ∀ ys, v ≠ .sList ys) (ho : goodVal v = true) :
    canonRoot v = ⟨baseType, [], canonOrderOf v, canonFieldsOf v, canonText v⟩ := by
  rw [canonRoot, canonVal_eq h ho]

/-! ### C1: the text of a scalar element -/

theorem charsThenWsRun {s : Str} {rest : List XEvent} (hws : WsEvents rest) :
    ∀ {ts : List Str} {closed : Bool} {D : LiveNode} {hs : List LiveNode}
      {root : Option LiveNode}, ts ≠ [] →
    saxRunM [] ⟨ts, closed, D :: hs, root⟩ (XEvent.chars s :: rest)
      = (⟨ts, closed, { D with text := D.text ++ (s ++ concatChars rest) } :: hs, root⟩,
         none) := by
  intro ts closed D hs root hts
  cases ts with
  | nil => exact absurd rfl hts
  | cons t0 ts0 =>
      have hstep : saxStep [] ⟨t0 :: ts0, closed, D :: hs, root⟩ (XEvent.chars s)
          = .inl ⟨t0 :: ts0, closed, { D with text := D.text ++ s } :: hs, root⟩ := rfl
      have hrw : saxRunM [] ⟨t0 :: ts0, closed, D :: hs, root⟩ (XEvent.chars s :: rest)
          = saxRunM [] ⟨t0 :: ts0, closed, { D with text := D.text ++ s } :: hs, root⟩
              rest := by
        rw [saxRunM, hstep]
      rw [hrw, wsCharsRun hws (List.cons_ne_nil t0 ts0)]
      simp [List.append_assoc]

theorem scalarTextRun : ∀ {s : Str} {evs : List XEvent},
    Decor (textEvents (some s)) evs →
    ∀ {ts : List Str} {closed : Bool} {attrs : List (Str × Str)} {hs : List LiveNode}
      {root : Option LiveNode}, ts ≠ [] →
    ∃ tx : Str,
      saxRunM [] ⟨ts, closed, ⟨baseType, attrs, [], [], []⟩ :: hs, root⟩ evs
        = (⟨ts, closed, ⟨baseType, attrs, [], [], tx⟩ :: hs, root⟩, none) ∧
      pyStrip tx = pyStrip s := by
  intro s
  cases s with
  | nil =>
      intro evs hdec ts closed attrs hs root hts
      have hws : WsEvents evs := decor_nil_inv hdec
      refine ⟨concatChars evs, ?_, ?_⟩
      · rw [wsCharsRun hws hts]
        simp
      · rw [pyStrip_all_space (concatChars_allSpace hws)]
        rfl
  | cons c s' =>
      intro evs hdec ts closed attrs hs root hts
      have hdec2 : Decor [XEvent.chars (c :: s')] evs := hdec
      obtain ⟨pre, rest, rfl, hpre, hrest⟩ := decor_cons_inv hdec2
      have hws2 : WsEvents rest := decor_nil_inv hrest
      refine ⟨concatChars pre ++ (c :: s') ++ concatChars rest, ?_, ?_⟩
      · refine saxRunM_append_run (wsCharsRun hpre hts) ?_
        rw [charsThenWsRun hws2 hts]
        simp
      · have hp1 : ∀ x ∈ concatChars pre, pySpace x := concatChars_allSpace hpre
        have hp2 : ∀ x ∈ concatChars rest, pySpace x := concatChars_allSpace hws2
        exact pyStrip_pad hp1 hp2


theorem mkOrder_cons (p : Str × List PVal) (ps : List (Str × List PVal)) :
    mkOrder (p :: ps) = List.replicate p.2.length p.1 ++ mkOrder ps := by
  simp [mkOrder]

theorem mkFields_cons (p : Str × List PVal) (ps : List (Str × List PVal)) :
    mkFields (p :: ps)
      = if p.2.isEmpty then mkFields ps else (p.1, .many p.2) :: mkFields ps := by
  by_cases h : p.2.isEmpty <;> simp [mkFields, List.filterMap_cons, h]

set_option maxRecDepth 4000 in
/-- The fan-out of a sequence under one tag: member fragments are parsed in
turn, each appending its children to the same field of the open parent. -/
theorem listFragsRun :
    ∀ (xs : List SVal), (∀ x ∈ xs, FragRunOk x) →
    ∀ {k : Str} {rs : List ETRes} {evs : List XEvent} {ts : List Str} {closed : Bool}
      {P : LiveNode} {hs : List LiveNode} {root : Option LiveNode},
    goodElems xs = true → toEtreeList xs (some k) = some rs →
    Decor (eventsOfRL rs) evs → ts ≠ [] → P.ty = baseType → allManyF P.fields →
    ∃ (vsAct : List PVal) (w : Str),
      saxRunM [] ⟨ts, closed, P :: hs, root⟩ evs
        = (⟨ts, closed,
            { P with
              childOrder := P.childOrder ++ List.replicate vsAct.length k
              fields := addVals P.fields k vsAct
              text := P.text ++ w } :: hs, root⟩, none) ∧
      normList vsAct = canonList xs ∧ allSpace w = true ∧
      allManyF (addVals P.fields k vsAct) := by
  intro xs
  induction xs with
  | nil =>
      intro _ k rs evs ts closed P hs root _ hlist hdec hts hty hmf
      rw [toEtreeList] at hlist
      cases hlist
      have hws : WsEvents evs := decor_nil_inv hdec
      refine ⟨[], concatChars evs, ?_, rfl, allSpace_iff.mpr (concatChars_allSpace hws),
        hmf⟩
      rw [wsCharsRun hws hts]
      simp [addVals]
  | cons x xs' ih =>
      intro IH k rs evs ts closed P hs root hg hlist hdec hts hty hmf
      obtain ⟨r, rs2, hx, hxs, rfl⟩ := toEtreeList_cons_inv hlist
      have hdec2 : Decor (eventsOfR r ++ eventsOfRL rs2) evs := hdec
      obtain ⟨e1, e2, rfl, hd1, hd2⟩ := decor_append_inv hdec2
      obtain ⟨hgv, hnl⟩ := goodelems_mem hg x (List.mem_cons_self _ _)
      simp only [goodElems, Bool.and_eq_true] at hg
      obtain ⟨vs₁, w₁, hrun₁, hnorm₁, hws₁, hmf₁⟩ :=
        IH x (List.mem_cons_self _ _) hgv hx hd1 hts hty hmf
      obtain ⟨vs₂, w₂, hrun₂, hnorm₂, hws₂, hmf₂⟩ :=
        ih (fun y hy => IH y (List.mem_cons_of_mem _ hy)) hg.2 hxs hd2 hts
          (P := { P with
                  childOrder := P.childOrder ++ List.replicate vs₁.length k
                  fields := addVals P.fields k vs₁
                  text := P.text ++ w₁ })
          hty hmf₁
      refine ⟨vs₁ ++ vs₂, w₁ ++ w₂, ?_, ?_, ?_, ?_⟩
      · rw [saxRunM_append_run hrun₁ hrun₂]
        simp only [List.append_assoc, List.length_append, List.replicate_add, addVals_append]
      · rw [normList_append, hnorm₁, hnorm₂, fanVals_of_not_list hnl]
        rfl
      · rw [allSpace, List.all_append]
        rw [allSpace] at hws₁ hws₂
        rw [hws₁, hws₂]
        rfl
      · rw [addVals_append]
        exact hmf₂

set_option maxRecDepth 4000 in
/-- The sorted-entry iteration of the dict branch, parsed back: each entry's
fragment lands in its own (fresh) field of the open dict element, so the
element accumulates exactly the canonical order and (up to normalization)
the canonical fields. -/
theorem dictEntriesRun :
    ∀ (qs : List (Str × SVal)), (∀ q ∈ qs, FragRunOk q.2) →
    ∀ {ps : List (Str × ETRes)} {evs : List XEvent} {ts : List Str} {closed : Bool}
      {D : LiveNode} {hs : List LiveNode} {root : Option LiveNode},
    (∀ q ∈ qs, goodVal q.2 = true) →
    (qs.map Prod.fst).Nodup →
    (∀ q ∈ qs, alookup D.fields q.1 = none) →
    serFields qs = some ps →
    Decor (eventsOfRL (ps.map Prod.snd)) evs →
    ts ≠ [] → D.ty = baseType → allManyF D.fields →
    ∃ (fs' : List (Str × PField)) (w : Str),
      saxRunM [] ⟨ts, closed, D :: hs, root⟩ evs
        = (⟨ts, closed,
            { D with
              childOrder := D.childOrder ++ mkOrder (canonPairs qs)
              fields := fs'
              text := D.text ++ w } :: hs, root⟩, none) ∧
      normFields fs' = normFields D.fields ++ mkFields (canonPairs qs) ∧
      allSpace w = true ∧ allManyF fs' := by
  intro qs
  induction qs with
  | nil =>
      intro _ ps evs ts closed D hs root _ _ _ hser hdec hts hty hmf
      rw [serFields] at hser
      cases hser
      have hws : WsEvents evs := decor_nil_inv hdec
      refine ⟨D.fields, concatChars evs, ?_,
        by rw [show mkFields (canonPairs ([] : List (Str × SVal))) = [] from rfl,
             List.append_nil],
        allSpace_iff.mpr (concatChars_allSpace hws), hmf⟩
      rw [wsCharsRun hws hts]
      have h0 : mkOrder (canonPairs ([] : List (Str × SVal))) = [] := rfl
      simp only [h0, List.append_nil]
  | cons q qs' ih =>
      intro IH ps evs ts closed D hs root hgood hnodup hfresh hser hdec hts hty hmf
      obtain ⟨k, v⟩ := q
      obtain ⟨r, ps2, hvr, hser2, rfl⟩ := serFields_cons_inv hser
      have hdec2 : Decor (eventsOfR r ++ eventsOfRL (List.map Prod.snd ps2)) evs := hdec
      obtain ⟨e1, e2, rfl, hd1, hd2⟩ := decor_append_inv hdec2
      obtain ⟨vs₁, w₁, hrun₁, hnorm₁, hws₁, hmf₁⟩ :=
        IH (k, v) (List.mem_cons_self _ _)
          (hgood (k, v) (List.mem_cons_self _ _)) hvr hd1 hts hty hmf
      have hf0 : alookup D.fields k = none := hfresh (k, v) (List.mem_cons_self _ _)
      have hshape : ∃ fsn : List (Str × PField),
          addVals D.fields k vs₁ = D.fields ++ fsn ∧
          normFields fsn
            = (if (fanVals v).isEmpty then [] else [(k, PField.many (fanVals v))]) ∧
          ∀ m : Str, m ≠ k → alookup fsn m = none := by
        cases vs₁ with
        | nil =>
            refine ⟨[], by rw [List.append_nil]; rfl, ?_, fun m hm => rfl⟩
            rw [← hnorm₁]
            rfl
        | cons v₀ vs₁' =>
            refine ⟨[(k, PField.many (v₀ :: vs₁'))], addVals_fresh hf0, ?_, ?_⟩
            · rw [← hnorm₁]
              rfl
            · intro m hm
              rw [alookup_cons, if_neg (Ne.symm hm)]
              rfl
      obtain ⟨fsn, hfe, hfn, hfm⟩ := hshape
      rw [hfe] at hrun₁ hmf₁
      simp only [List.map_cons, List.nodup_cons] at hnodup
      have hne : ∀ q' ∈ qs', q'.1 ≠ k := by
        intro q' h' he
        exact hnodup.1 (he ▸ List.mem_map_of_mem Prod.fst h')
      have hfresh' : ∀ q' ∈ qs',
          alookup (D.fields ++ fsn) q'.1 = none := by
        intro q' h'
        rw [alookup_append_fresh (hfresh q' (List.mem_cons_of_mem _ h'))]
        exact hfm q'.1 (hne q' h')
      obtain ⟨fs₂, w₂, hrun₂, hnorm₂, hws₂, hmf₂⟩ :=
        ih (fun q' h' => IH q' (List.mem_cons_of_mem _ h'))
          (fun q' h' => hgood q' (List.mem_cons_of_mem _ h')) hnodup.2 hfresh' hser2 hd2
          hts
          (D := { D with
                  childOrder := D.childOrder ++ List.replicate vs₁.length k
                  fields := D.fields ++ fsn
                  text := D.text ++ w₁ })
          hty hmf₁
      have hlen : (fanVals v).length = vs₁.length := by
        rw [← hnorm₁, normList_length]
      have hcoeq : mkOrder (canonPairs ((k, v) :: qs'))
          = List.replicate vs₁.length k ++ mkOrder (canonPairs qs') := by
        rw [canonPairs_eq_map, List.map_cons, mkOrder_cons, ← canonPairs_eq_map]
        simp [hlen]
      have hfeq : mkFields (canonPairs ((k, v) :: qs'))
          = (if (fanVals v).isEmpty then [] else [(k, PField.many (fanVals v))])
            ++ mkFields (canonPairs qs') := by
        rw [canonPairs_eq_map, List.map_cons, mkFields_cons, ← canonPairs_eq_map]
        by_cases hE : (fanVals v).isEmpty <;> simp [hE]
      refine ⟨fs₂, w₁ ++ w₂, ?_, ?_, ?_, hmf₂⟩
      · rw [saxRunM_append_run hrun₁ hrun₂]
        simp only [hcoeq, List.append_assoc]
      · rw [hnorm₂, normFields_append, hfn, hfeq, List.append_assoc]
      · rw [allSpace, List.all_append]
        rw [allSpace] at hws₁ hws₂
        rw [hws₁, hws₂]
        rfl

theorem saxRunM_cons_run {reg : List (Str × NodeType)} {e : XEvent} {rest : List XEvent}
    {st st' : MState} {res : MState × Option PErr}
    (h1 : saxStep reg st e = .inl st') (h2 : saxRunM reg st' rest = res) :
    saxRunM reg st (e :: rest) = res := by
  rw [saxRunM, h1]
  exact h2

/-- A non-sequence in-scope value serializes to an element carrying the
suggested tag and no attributes. -/
theorem toEtreeR_shape {v : SVal} (hnl : ∀ ys, v ≠ .sList ys) (hg : goodVal v = true)
    {k : Str} {t : XTree} (h : toEtreeR v (some k) = some (.single t)) :
    t.tag = k ∧ t.attrs = [] := by
  cases v with
  | sBool b =>
      rw [toEtreeR] at h
      cases h
      exact ⟨rfl, rfl⟩
  | sInt n =>
      rw [toEtreeR] at h
      cases h
      exact ⟨rfl, rfl⟩
  | sStr s =>
      rw [toEtreeR] at h
      cases h
      exact ⟨rfl, rfl⟩
  | sList ys => exact absurd rfl (hnl ys)
  | sDict es =>
      rw [toEtreeR] at h
      rcases h1 : serFields es with _ | rs
      · simp only [h1] at h
        cases h
      · simp only [h1] at h
        rcases h2 : addAll [] (sortByFst rs) with _ | cs
        · simp only [h2] at h
          cases h
        · simp only [h2] at h
          cases h
          exact ⟨rfl, rfl⟩
  | sObj c a f co t => exact Bool.noConfusion hg

set_option maxRecDepth 4000 in
/-- Inside a freshly opened element for a non-sequence value, the decorated
body events build exactly the canonical order, fields (up to normalization)
and text (up to strip). -/
theorem innerElemRun :
    ∀ (v : SVal), (∀ u : SVal, sizeOf u < sizeOf v → FragRunOk u) →
    ∀ {k : Str} {t : XTree} {evs : List XEvent} {ts : List Str} (closed : Bool)
      (a : List (Str × Str)) (hs : List LiveNode) (root : Option LiveNode),
    goodVal v = true → (∀ ys, v ≠ .sList ys) →
    toEtreeR v (some k) = some (.single t) →
    Decor (textEvents t.text ++ eventsOfL t.children) evs →
    ts ≠ [] →
    ∃ (co : List Str) (fs : List (Str × PField)) (tx : Str),
      saxRunM [] ⟨ts, closed, ⟨baseType, a, [], [], []⟩ :: hs, root⟩ evs
        = (⟨ts, closed, ⟨baseType, a, co, fs, tx⟩ :: hs, root⟩, none) ∧
      co = canonOrderOf v ∧ normFields fs = canonFieldsOf v ∧
      pyStrip tx = canonText v ∧ allManyF fs := by
  intro v IH k t evs ts closed a hs root hgv hnl hser hdec hts
  cases v with
  | sBool b =>
      rw [toEtreeR] at hser
      cases hser
      have hdec2 : Decor (textEvents (some (if b then "true".data else "false".data))) evs := by
        rw [show textEvents (some (if b then "true".data else "false".data))
            = textEvents (some (if b then "true".data else "false".data)) ++ ([] : List XEvent)
          from (List.append_nil _).symm]
        exact hdec
      obtain ⟨tx, hrun, hstrip⟩ := scalarTextRun hdec2 hts
      refine ⟨[], [], tx, hrun, rfl, rfl, ?_, fun p hp => absurd hp (List.not_mem_nil p)⟩
      rw [hstrip]
      cases b <;> decide
  | sInt n =>
      rw [toEtreeR] at hser
      cases hser
      have hdec2 : Decor (textEvents (some (intToStr n))) evs := by
        rw [show textEvents (some (intToStr n))
            = textEvents (some (intToStr n)) ++ ([] : List XEvent)
          from (List.append_nil _).symm]
        exact hdec
      obtain ⟨tx, hrun, hstrip⟩ := scalarTextRun hdec2 hts
      exact ⟨[], [], tx, hrun, rfl, rfl, hstrip,
        fun p hp => absurd hp (List.not_mem_nil p)⟩
  | sStr s =>
      rw [toEtreeR] at hser
      cases hser
      have hdec2 : Decor (textEvents (some s)) evs := by
        rw [show textEvents (some s)
            = textEvents (some s) ++ ([] : List XEvent)
          from (List.append_nil _).symm]
        exact hdec
      obtain ⟨tx, hrun, hstrip⟩ := scalarTextRun hdec2 hts
      exact ⟨[], [], tx, hrun, rfl, rfl, hstrip,
        fun p hp => absurd hp (List.not_mem_nil p)⟩
  | sList ys => exact absurd rfl (hnl ys)
  | sObj c at2 f co2 t2 => exact Bool.noConfusion hgv
  | sDict es =>
      rw [toEtreeR] at hser
      rcases h1 : serFields es with _ | rs
      · simp only [h1] at hser
        cases hser
      rcases h2 : addAll [] (sortByFst rs) with _ | cs
      · simp only [h1, h2] at hser
        cases hser
      simp only [h1, h2] at hser
      cases hser
      have hdec2 : Decor (eventsOfL cs) evs := hdec
      have hev : eventsOfL cs = eventsOfRL (List.map Prod.snd (sortByFst rs)) := by
        simpa using addAll_events h2
      rw [hev] at hdec2
      have hser' : serFields (sortByFst es) = some (sortByFst rs) := serFields_sortByFst h1
      have hIH : ∀ q ∈ sortByFst es, FragRunOk q.2 := by
        intro q hq
        refine IH q.2 ?_
        have h3 := List.sizeOf_lt_of_mem ((sortByFst_perm es).mem_iff.mp hq)
        obtain ⟨x, y⟩ := q
        simp only [Prod.mk.sizeOf_spec] at h3
        simp only [SVal.sDict.sizeOf_spec]
        omega
      have hgood : ∀ q ∈ sortByFst es, goodVal q.2 = true := fun q hq =>
        goodEntries_mem hgv q ((sortByFst_perm es).mem_iff.mp hq)
      have hnd : ((sortByFst es).map Prod.fst).Nodup :=
        (((sortByFst_perm es).map Prod.fst).nodup_iff).mpr (goodEntries_nodup hgv)
      obtain ⟨fs', w, hrun, hnorm, hws, hmf'⟩ :=
        dictEntriesRun (sortByFst es) hIH hgood hnd (fun q hq => rfl) hser' hdec2 hts
          (D := (⟨baseType, a, [], [], []⟩ : LiveNode)) rfl
          (fun p hp => absurd hp (List.not_mem_nil p))
      refine ⟨mkOrder (canonPairs (sortByFst es)), fs', w, ?_, ?_, ?_, ?_, hmf'⟩
      · rw [hrun]
        simp
      · rw [show canonOrderOf (SVal.sDict es) = mkOrder (sortByFst (canonPairs es))
            from rfl, sortByFst_canonPairs]
      · rw [hnorm]
        rw [show canonFieldsOf (SVal.sDict es) = mkFields (sortByFst (canonPairs es))
            from rfl, sortByFst_canonPairs]
        rfl
      · rw [pyStrip_all_space (allSpace_iff.mp hws)]
        rfl

set_option maxRecDepth 4000 in
/-- The fragment contract for a non-sequence value: whitespace, the start
tag, the decorated body, the end tag (finalizing the element into its
parent's field), more whitespace. -/
theorem fragRunNonList :
    ∀ (v : SVal), (∀ u : SVal, sizeOf u < sizeOf v → FragRunOk u) →
    (∀ ys, v ≠ .sList ys) → FragRunOk v := by
  intro v IH hnl k r evs ts closed P hs root hgv hser hdec hts hty hmf
  obtain ⟨t, rfl, htag⟩ := toEtreeR_single_of_not_list hnl hser
  obtain ⟨htag2, hattr⟩ := toEtreeR_shape hnl hgv hser
  obtain ⟨tag, tatt, ttxt, tch⟩ := t
  have hk : tag = k := htag
  subst hk
  have ha : tatt = [] := hattr
  subst ha
  have hdec1 : Decor
      (XEvent.start tag [] :: ((textEvents ttxt ++ eventsOfL tch) ++ [XEvent.stop tag]))
      evs := hdec
  obtain ⟨pre, evs₁, rfl, hpre, hd₁⟩ := decor_cons_inv hdec1
  obtain ⟨e₂, e₃, rfl, hd₂, hd₃⟩ := decor_append_inv hd₁
  obtain ⟨pre₂, rest, rfl, hpre₂, hd₄⟩ := decor_cons_inv hd₃
  have hwsr : WsEvents rest := decor_nil_inv hd₄
  cases ts with
  | nil => exact absurd rfl hts
  | cons t0 ts0 =>
      obtain ⟨co, fs, tx, hrun₂, hco, hfs, htx, hmf₂⟩ :=
        innerElemRun v IH closed []
          (({ P with text := P.text ++ concatChars pre } : LiveNode) :: hs)
          root hgv hnl hser hd₂ (List.cons_ne_nil tag (t0 :: ts0))
      have hstep1 : saxStep [] ⟨t0 :: ts0, closed,
          ({ P with text := P.text ++ concatChars pre } : LiveNode) :: hs, root⟩
          (XEvent.start tag [])
          = .inl ⟨tag :: t0 :: ts0, closed,
              (⟨baseType, [], [], [], []⟩ : LiveNode)
                :: ({ P with text := P.text ++ concatChars pre } : LiveNode) :: hs,
              root⟩ := rfl
      have hmem : tag ∉ ({ P with text := P.text ++ concatChars pre } :
          LiveNode).ty.singleChildren := by
        rw [show ({ P with text := P.text ++ concatChars pre } : LiveNode).ty = P.ty
            from rfl, hty]
        exact List.not_mem_nil tag
      have hok := lookupF_of_allManyF tag hmf
      have hfin : finalize (⟨baseType, [], co, fs, tx ++ concatChars pre₂⟩ : LiveNode)
          = .ok (.vNode [] co fs (tx ++ concatChars pre₂)) := finalize_base rfl
      have haddc := addChild_base
        (p := ({ P with text := P.text ++ concatChars pre } : LiveNode)) hmem hok hfin
      have hne : ¬ (tag ≠ tag) := fun hcon => hcon rfl
      have hstep2 : saxStep [] ⟨tag :: t0 :: ts0, closed,
          (⟨baseType, [], co, fs, tx ++ concatChars pre₂⟩ : LiveNode)
            :: ({ P with text := P.text ++ concatChars pre } : LiveNode) :: hs, root⟩
          (XEvent.stop tag)
          = .inl ⟨t0 :: ts0, closed,
              ({ P with
                 childOrder := P.childOrder ++ [tag]
                 fields := addOne P.fields tag (.vNode [] co fs (tx ++ concatChars pre₂))
                 text := P.text ++ concatChars pre } : LiveNode) :: hs, root⟩ := by
        simp only [saxStep, ne_eq, hne, if_false, haddc, List.isEmpty_cons, Bool.or_false]
      refine ⟨[.vNode [] co fs (tx ++ concatChars pre₂)],
        concatChars pre ++ concatChars rest, ?_, ?_, ?_, ?_⟩
      · refine saxRunM_append_run (wsCharsRun hpre hts) ?_
        refine saxRunM_cons_run hstep1 ?_
        refine saxRunM_append_run hrun₂ ?_
        refine saxRunM_append_run
          (wsCharsRun hpre₂ (List.cons_ne_nil tag (t0 :: ts0))) ?_
        refine saxRunM_cons_run hstep2 ?_
        rw [wsCharsRun hwsr hts]
        simp only [List.length_cons, List.length_nil, List.replicate_succ,
          List.replicate_zero, List.append_nil, List.append_assoc, addVals]
      · rw [fanVals_of_not_list hnl, canonVal_eq hnl hgv]
        simp only [normList, normVal]
        rw [pyStrip_append_space (concatChars_allSpace hpre₂), htx, hfs, hco]
      · rw [allSpace, List.all_append]
        have h1 := allSpace_iff.mpr (concatChars_allSpace hpre)
        have h2 := allSpace_iff.mpr (concatChars_allSpace hwsr)
        rw [allSpace] at h1 h2
        rw [h1, h2]
        rfl
      · exact allManyF_addVals hmf

/-- Every in-scope value satisfies the fragment contract. -/
theorem fragRun : ∀ (v : SVal), FragRunOk v := by
  intro v
  cases v with
  | sList xs =>
      intro k r evs ts closed P hs root hgv hser hdec hts hty hmf
      obtain ⟨rs, hlist, rfl⟩ := toEtreeR_list_eq hser
      exact listFragsRun xs (fun x hx => fragRun x) hgv hlist hdec hts hty hmf
  | sBool b =>
      exact fragRunNonList (.sBool b) (fun u hu => fragRun u) (fun ys h => by cases h)
  | sInt n =>
      exact fragRunNonList (.sInt n) (fun u hu => fragRun u) (fun ys h => by cases h)
  | sStr s =>
      exact fragRunNonList (.sStr s) (fun u hu => fragRun u) (fun ys h => by cases h)
  | sDict es =>
      exact fragRunNonList (.sDict es) (fun u hu => fragRun u) (fun ys h => by cases h)
  | sObj c a f co t =>
      intro k r evs ts closed P hs root hgv hser hdec hts hty hmf
      exact Bool.noConfusion hgv
termination_by v => sizeOf v
decreasing_by
  all_goals simp_wf
  all_goals first
    | (have h1 := List.sizeOf_lt_of_mem hx
       omega)
    | (simp at hu
       omega)

set_option maxRecDepth 4000 in
/-- **C1** (amended): the round trip holds for graphs whose top level is a
scalar or a mapping, with sequences occurring (unnested) as mapping values,
and whose mapping keys are duplicate-free, nonempty and do not begin with an
underscore: for any such `x`, if `toXml(x, "root")` produces a document
tree, then feeding any whitespace decoration of that tree's event stream to
a fresh default binder parses without error and returns a root node equal,
after normalizing every accumulated text up to `strip`, to the canonical
parse image of `x` (entries in sorted key order, sequences fanned out one
child per member, scalar texts up to `strip`).  The amendment excludes,
beyond the original claim:
* top-level sequences — `toXml` raises on them (the counterexample) — and
  nested sequences, which the serializer also rejects;
* underscore-initial keys: serialization succeeds, but such a key addresses
  the node's internal namespace on the parse side, so the round trip fails
  in the source — `{'_text': 1}` yields `<root><_text>1</_text></root>`
  whose parse raises `AttributeError` (`''.append` on the internal text
  slot), `{'_childOrder': v}` diverts `v` into the internal order list
  instead of a field, and method-named keys shadow node methods; these
  collisions are a declared model boundary (see `addChild`), excluded by
  `goodTop`/`goodEntries` rather than witnessed in the model;
* empty keys, which lxml rejects as tag names (`toXml` raises).
"Structurally equivalent" is made precise via `canonRoot`/`normLive`. -/
theorem c1_roundtrip :
    ∀ (x : SVal) (t : XTree) (evs : List XEvent),
    goodTop x = true →
    toXml x (some ("root".data)) = some t →
    Decor (eventsOfT t) evs →
    ∃ L : LiveNode,
      parseString [] ⟨[], none⟩ evs = (⟨[], none⟩, .ok (some L)) ∧
      normLive L = canonRoot x := by
  intro x t evs hx ht hdec
  have hnl : ∀ ys, x ≠ .sList ys := by
    intro ys hcon
    rw [hcon] at hx
    exact Bool.noConfusion hx
  have hgv : goodVal x = true := by
    cases x with
    | sBool b => rfl
    | sInt n => rfl
    | sStr s => rfl
    | sList ys => exact absurd rfl (hnl ys)
    | sDict es => exact hx
    | sObj c a f co2 t2 => exact Bool.noConfusion hx
  have hser : toEtreeR x (some ("root".data)) = some (.single t) := by
    rw [toXml] at ht
    rcases h1 : toEtreeR x (some ("root".data)) with _ | r
    · rw [h1] at ht
      cases ht
    · rw [h1] at ht
      cases r with
      | single t2 =>
          cases ht
          rfl
      | frags rs => cases ht
  obtain ⟨htag, hattr⟩ := toEtreeR_shape hnl hgv hser
  obtain ⟨tag, tatt, ttxt, tch⟩ := t
  have ha : tatt = [] := hattr
  subst ha
  have hdec1 : Decor
      (XEvent.start tag [] :: ((textEvents ttxt ++ eventsOfL tch) ++ [XEvent.stop tag]))
      evs := hdec
  obtain ⟨pre, evs₁, rfl, hpre, hd₁⟩ := decor_cons_inv hdec1
  obtain ⟨e₂, e₃, rfl, hd₂, hd₃⟩ := decor_append_inv hd₁
  obtain ⟨pre₂, rest, rfl, hpre₂, hd₄⟩ := decor_cons_inv hd₃
  have hwsr : WsEvents rest := decor_nil_inv hd₄
  obtain ⟨co, fs, tx, hrun₂, hco, hfs, htx, hmf₂⟩ :=
    innerElemRun x (fun u hu => fragRun u) false [] [] none hgv hnl hser hd₂
      (List.cons_ne_nil tag [])
  have hstep1 : saxStep [] ⟨[], false, [], none⟩ (XEvent.start tag [])
      = .inl ⟨[tag], false, [⟨baseType, [], [], [], []⟩], none⟩ := rfl
  have hne : ¬ (tag ≠ tag) := fun hcon => hcon rfl
  have hstep2 : saxStep [] ⟨[tag], false,
      [(⟨baseType, [], co, fs, tx ++ concatChars pre₂⟩ : LiveNode)], none⟩
      (XEvent.stop tag)
      = .inl ⟨[], true, [],
          some (⟨baseType, [], co, fs, tx ++ concatChars pre₂⟩ : LiveNode)⟩ := by
    simp only [saxStep, ne_eq, hne, if_false, List.isEmpty_nil, Bool.or_true]
  have hrt : saxRunM [] ⟨[], false, [], none⟩
      (pre ++ XEvent.start tag [] :: (e₂ ++ (pre₂ ++ XEvent.stop tag :: rest)))
      = (⟨[], true, [],
          some (⟨baseType, [], co, fs, tx ++ concatChars pre₂⟩ : LiveNode)⟩, none) := by
    refine saxRunM_append_run (wsOutsideRun hpre) ?_
    refine saxRunM_cons_run hstep1 ?_
    refine saxRunM_append_run hrun₂ ?_
    refine saxRunM_append_run (wsCharsRun hpre₂ (List.cons_ne_nil tag [])) ?_
    refine saxRunM_cons_run hstep2 ?_
    exact wsOutsideRun hwsr
  refine ⟨⟨baseType, [], co, fs, tx ++ concatChars pre₂⟩, ?_, ?_⟩
  · simp only [parseString, hrt]
    rfl
  · rw [canonRoot_eq hnl hgv, normLive]
    rw [pyStrip_append_space (concatChars_allSpace hpre₂), hco, hfs, htx]

/-- **C1** counterexample: the original claim quantifies over every graph
built from scalars, sequences and mappings, but for the sequence `[1, 2]`
at top level the round trip is impossible — `toXml` raises (the "tree" is a
plain fragment list that `etree.tostring` cannot serialize as one
document), so `parse(toXml([1,2], "root"))` has no value at all. -/
theorem c1_toplevel_sequence_counterexample :
    toXml (.sList [.sInt 1, .sInt 2]) (some ("root".data)) = none := rfl

/-- **C1** witness: the mapping `{"a": 1}` serialized under tag `root`
round-trips to its canonical parse image. -/
theorem c1_roundtrip_witness :
    ∃ L : LiveNode,
      parseString [] ⟨[], none⟩
          (eventsOfT (.mk ("root".data) [] none [.mk ("a".data) [] (some ("1".data)) []]))
        = (⟨[], none⟩, .ok (some L)) ∧
      normLive L = canonRoot (.sDict [("a".data, .sInt 1)]) :=
  c1_roundtrip (.sDict [("a".data, .sInt 1)])
    (.mk ("root".data) [] none [.mk ("a".data) [] (some ("1".data)) []])
    (eventsOfT (.mk ("root".data) [] none [.mk ("a".data) [] (some ("1".data)) []]))
    (by decide) rfl (decor_refl _)
